import Mathlib

/-!
Verification development for the ragstack hybrid vector-and-graph retrieval
engine (`ragstack_knowledge_store`).

The Python sources are shallowly embedded:

* embedding vectors are abstracted as identifiers (`ℕ`) and
  `cosine_similarity` as an arbitrary function `sim` into a linearly
  ordered commutative ring `α` of scores (any model of the float ordering
  logic, e.g. `ℚ`; concrete runs use `ℤ`); the float arithmetic of the
  source is modelled by the ring operations, which preserves all the
  comparison/ordering logic the development reasons about;
* node ids are `ℕ`, link tags are pairs `ℕ × ℕ` standing for `(kind, value)`;
* the external storage engine (spec §1 lists it as a collaborator, not part
  of the implementation) is modelled as a family of row-returning oracles:
  the algorithm is a deterministic function of the rows each query returns;
* Python `dict`s (insertion ordered) are association lists, Python `set`s
  are duplicate-free lists;
* fallible code returns `Except`.
-/

namespace Ragstack

/-! ## Python dict / set primitives

Association-list model of Python `dict` (insertion-ordered, re-assignment of
an existing key keeps its position) and of Python `set` operations. -/

def dictContains {α : Type} (m : List (ℕ × α)) (k : ℕ) : Bool :=
  m.any (fun p => p.1 == k)

def dictLookup {α : Type} (m : List (ℕ × α)) (k : ℕ) : Option α :=
  (m.find? (fun p => p.1 == k)).map Prod.snd

def dictSet {α : Type} (m : List (ℕ × α)) (k : ℕ) (v : α) : List (ℕ × α) :=
  if dictContains m k then m.map (fun p => if p.1 == k then (k, v) else p)
  else m ++ [(k, v)]

def dictErase {α : Type} (m : List (ℕ × α)) (k : ℕ) : List (ℕ × α) :=
  m.filter (fun p => !(p.1 == k))

/-- Python `set.update` / union, preserving first-insertion order. -/
def setUnion {α : Type} [BEq α] (s : List α) (ts : List α) : List α :=
  ts.foldl (fun s t => if s.contains t then s else s ++ [t]) s

namespace Cassandra

variable {α : Type} [LinearOrderedCommRing α]

/-!
## `cassandra.py`

Embedding of `src/libs/knowledge-store/ragstack_knowledge_store/cassandra.py`:
the `_Candidate` dataclass (lines 60-93) and
`CassandraKnowledgeStore.mmr_traversal_search` (lines 409-515).
-/

/-- `_Candidate` (cassandra.py lines 60-93). `embedding` is the abstract
identifier of the candidate's vector. -/
structure Candidate (α : Type) where
  score : α
  similarity_to_query : α
  embedding : ℕ
  redundancy : α
  distance : ℕ
  deriving DecidableEq, Repr

/-- `_Candidate.__init__` (cassandra.py lines 72-83):
`similarity_to_query = lambda_mult * cosine_similarity(query_embedding, embedding)`,
`redundancy = 0.0`, `score = similarity_to_query - redundancy`, `distance = 0`. -/
def Candidate.ofEmbedding (sim : ℕ → ℕ → α) (embedding : ℕ) (lambda_mult : α)
    (query_embedding : ℕ) : Candidate α :=
  let similarity_to_query := lambda_mult * sim query_embedding embedding
  let redundancy : α := 0
  { score := similarity_to_query - redundancy
    similarity_to_query := similarity_to_query
    embedding := embedding
    redundancy := redundancy
    distance := 0 }

/-- `_Candidate.update_for_selection` (cassandra.py lines 85-93):
`selected_r_sim = (1 - lambda_mult) * cosine_similarity(selection_embedding, embedding)`;
if it exceeds the current redundancy, the redundancy is raised to it and the
score recomputed as `similarity_to_query - selected_r_sim`. -/
def Candidate.update_for_selection (sim : ℕ → ℕ → α) (lambda_mult : α)
    (selection_embedding : ℕ) (c : Candidate α) : Candidate α :=
  let selected_r_sim := (1 - lambda_mult) * sim selection_embedding c.embedding
  if c.redundancy < selected_r_sim then
    { c with redundancy := selected_r_sim
             score := c.similarity_to_query - selected_r_sim }
  else c

/-- A candidate as the algorithm has evolved it: constructed by
`_Candidate.__init__` and then updated by `update_for_selection` once per
already-selected embedding, in order. -/
def Candidate.afterSelections (sim : ℕ → ℕ → α) (lambda_mult : α)
    (query_embedding embedding : ℕ) (selections : List ℕ) : Candidate α :=
  selections.foldl (fun c s => c.update_for_selection sim lambda_mult s)
    (Candidate.ofEmbedding sim embedding lambda_mult query_embedding)

/-- Row of `_query_ids_and_embedding_by_embedding`. -/
structure FetchRow where
  content_id : ℕ
  text_embedding : ℕ
  deriving DecidableEq, Repr

/-- Row of `_query_edges_by_source`. -/
structure EdgeRow where
  target_content_id : ℕ
  target_text_embedding : ℕ
  deriving DecidableEq, Repr

/-- Python `max` over a list of `(score, content_id)` tuples: lexicographic
comparison, `none` on the empty list (where CPython raises
`ValueError: max() arg is an empty sequence`). -/
def pyMaxPair : List (α × ℕ) → Option (α × ℕ)
  | [] => none
  | p :: ps => some (ps.foldl (fun a b =>
      if a.1 < b.1 ∨ (a.1 = b.1 ∧ a.2 < b.2) then b else a) p)

/-- Mutable state of the `mmr_traversal_search` loop (cassandra.py lines
442-513). `best` is `none` exactly when the Python pair is
`(float(-inf), None)`. -/
structure MmrState (α : Type) where
  selected_ids : List ℕ
  selected_embeddings : List ℕ
  unselected : List (ℕ × Candidate α)
  best : Option (α × ℕ)
  deriving Repr

/-- Body of the `for row in adjacents` loop (cassandra.py lines 491-513),
processing one edge row: skip targets already selected; for targets already
pending, only shorten the recorded distance; otherwise build a fresh
candidate, replay every past selection against it, and add it to the pool. -/
def processEdgeRow (sim : ℕ → ℕ → α) (lambda_mult : α) (query_embedding : ℕ)
    (next_depth : ℕ) (st : MmrState α) (row : EdgeRow) : MmrState α :=
  let target_id := row.target_content_id
  if st.selected_ids.contains target_id then st
  else if dictContains st.unselected target_id then
    match dictLookup st.unselected target_id with
    | none => st
    | some cand =>
      if next_depth < cand.distance then
        { st with unselected :=
            dictSet st.unselected target_id { cand with distance := next_depth } }
      else st
  else
    let adjacent := Candidate.ofEmbedding sim row.target_text_embedding
      lambda_mult query_embedding
    let adjacent := st.selected_embeddings.foldl
      (fun c e => c.update_for_selection sim lambda_mult e) adjacent
    let st := { st with unselected := dictSet st.unselected target_id adjacent }
    match st.best with
    | none => { st with best := some (adjacent.score, target_id) }
    | some (best_score, _) =>
      if best_score < adjacent.score then
        { st with best := some (adjacent.score, target_id) }
      else st

/-- One iteration of the `while` loop of `mmr_traversal_search`
(cassandra.py lines 464-513); `none` means the loop exits. -/
def mmrStep (sim : ℕ → ℕ → α) (lambda_mult score_threshold : α)
    (query_embedding : ℕ) (k depth : ℕ) (edges : ℕ → List EdgeRow)
    (st : MmrState α) : Option (MmrState α) :=
  if st.selected_ids.length < k then
    match st.best with
    | none => none
    | some (best_score, next_id) =>
      if best_score < score_threshold then none
      else
        match dictLookup st.unselected next_id with
        | none => none
        | some next_selected =>
          let selected_id := next_id
          let st := { st with
            selected_ids := st.selected_ids ++ [selected_id]
            unselected := dictErase st.unselected selected_id
            selected_embeddings := st.selected_embeddings ++ [next_selected.embedding]
            best := none }
          -- Update unselected scores, recomputing the running maximum.
          let updated := st.unselected.map (fun p =>
            (p.1, p.2.update_for_selection sim lambda_mult next_selected.embedding))
          let best := updated.foldl (fun acc p =>
            match acc with
            | none => some (p.2.score, p.1)
            | some (bs, _) => if bs < p.2.score then some (p.2.score, p.1) else acc)
            none
          let st := { st with unselected := updated, best := best }
          -- Add unselected edges if reached nodes are within `depth`.
          let next_depth := next_selected.distance + 1
          if next_depth < depth then
            some ((edges selected_id).foldl
              (processEdgeRow sim lambda_mult query_embedding next_depth) st)
          else some st
  else none

/-- The `while` loop, fuelled; each productive iteration appends one id so
`k` iterations always suffice. -/
def mmrLoop (sim : ℕ → ℕ → α) (lambda_mult score_threshold : α)
    (query_embedding : ℕ) (k depth : ℕ) (edges : ℕ → List EdgeRow) :
    ℕ → MmrState α → MmrState α
  | 0, st => st
  | fuel + 1, st =>
    match mmrStep sim lambda_mult score_threshold query_embedding k depth edges st with
    | none => st
    | some st' => mmrLoop sim lambda_mult score_threshold query_embedding k depth
        edges fuel st'

/-- `CassandraKnowledgeStore.mmr_traversal_search` (cassandra.py lines
409-515). `fetched` is the row sequence produced by the initial
`_query_ids_and_embedding_by_embedding` similarity query (the external
storage engine applies `LIMIT fetch_k`); `edges` gives the rows of
`_query_edges_by_source` per source id. The result is the list of selected
content ids (the source hydrates them with `_query_by_ids`). -/
def mmr_traversal_search (sim : ℕ → ℕ → α) (query_embedding : ℕ)
    (fetched : List FetchRow) (edges : ℕ → List EdgeRow) (k depth : ℕ)
    (lambda_mult score_threshold : α) : Except String (List ℕ) :=
  let unselected := fetched.foldl (fun m row =>
    dictSet m row.content_id
      (Candidate.ofEmbedding sim row.text_embedding lambda_mult query_embedding)) []
  match pyMaxPair (unselected.map (fun p => (p.2.score, p.1))) with
  | none => Except.error "ValueError: max() arg is an empty sequence"
  | some best =>
    let st : MmrState α :=
      { selected_ids := []
        selected_embeddings := []
        unselected := unselected
        best := some best }
    Except.ok (mmrLoop sim lambda_mult score_threshold query_embedding k depth
      edges k st).selected_ids

end Cassandra

namespace GraphStore

variable {α : Type} [LinearOrderedCommRing α]

/-!
## `graph_store.py`

Embedding of `src/libs/knowledge-store/ragstack_knowledge_store/graph_store.py`:
`mmr_traversal_search` (lines 358-547), `_get_outgoing_tags` (710-734),
`_get_adjacent` (736-788), `_nodes_with_ids` (328-356), the plain
`traversal_search` with its `visit_nodes` / `visit_targets` callbacks
(549-679), and `_extract_where_clause_cql` (850-875).
-/

/-- A link tag `(kind, value)`. -/
abbrev Tag := ℕ × ℕ

/-- Modelled from the spec: the candidate record of the Candidate/MMR Engine
(spec §4.2).  `graph_store.py` imports `MmrHelper` from `._mmr_helper`, whose
source is not under `src/`; the candidate carries `similarityToQuery`
(`λ · sim(query, embedding)`), `redundancy` and `score =
similarityToQuery − redundancy`. -/
structure HCandidate (α : Type) where
  id : ℕ
  embedding : ℕ
  similarity_to_query : α
  redundancy : α
  score : α
  deriving DecidableEq, Repr

/-- Modelled from the spec: `UpdateForSelection(selectedEmbedding)` of the
Candidate/MMR Engine (spec §4.2): `candidateRedundancy = (1−λ) *
sim(selectedEmbedding, candidate.embedding)`; if greater than the current
redundancy, update `redundancy` and recompute `score`. -/
def HCandidate.update_for_selection (sim : ℕ → ℕ → α) (lambda_mult : α)
    (selection_embedding : ℕ) (c : HCandidate α) : HCandidate α :=
  let r := (1 - lambda_mult) * sim selection_embedding c.embedding
  if c.redundancy < r then
    { c with redundancy := r, score := c.similarity_to_query - r }
  else c

/-- Modelled from the spec: the state of the Candidate/MMR Engine
(`MmrHelper` of `_mmr_helper.py`, absent from `src/`; spec §4.2): the tracked
candidate pool and the ids chosen so far in selection order (paired with
their embeddings, which §4.2's `UpdateForSelection` consumes). -/
structure MmrHelper (α : Type) where
  lambda_mult : α
  score_threshold : α
  query_embedding : ℕ
  candidates : List (HCandidate α)
  selected : List (ℕ × ℕ)
  deriving Repr

/-- `SelectedIDs()` (spec §4.2): ids chosen so far, in selection order. -/
def MmrHelper.selected_ids (h : MmrHelper α) : List ℕ :=
  h.selected.map Prod.fst

/-- `helper.candidate_ids()` used at graph_store.py line 486. -/
def MmrHelper.candidate_ids (h : MmrHelper α) : List ℕ :=
  h.candidates.map HCandidate.id

/-- An id is tracked when it is in the candidate pool or already selected
(spec §4.2: `AddCandidates` acts "for each new id not already tracked"). -/
def MmrHelper.tracked (h : MmrHelper α) (i : ℕ) : Bool :=
  h.candidates.any (fun c => c.id == i) || h.selected.any (fun p => p.1 == i)

/-- Modelled from the spec: one `(id, embedding)` entry of
`AddCandidates` (spec §4.2): a new id not already tracked enters the pool
with `similarityToQuery = λ * sim(query, embedding)`, `redundancy = 0`,
`score = similarityToQuery`; an id already present is ignored (first writer
wins). -/
def MmrHelper.add_candidate_step (sim : ℕ → ℕ → α) (h : MmrHelper α)
    (p : ℕ × ℕ) : MmrHelper α :=
  if h.tracked p.1 then h
  else
    let simq := h.lambda_mult * sim h.query_embedding p.2
    { h with candidates := h.candidates ++
        [{ id := p.1, embedding := p.2, similarity_to_query := simq
           redundancy := 0, score := simq }] }

/-- Modelled from the spec: `AddCandidates(idToEmbedding)` (spec §4.2). -/
def MmrHelper.add_candidates (sim : ℕ → ℕ → α) (h : MmrHelper α)
    (idToEmbedding : List (ℕ × ℕ)) : MmrHelper α :=
  idToEmbedding.foldl (MmrHelper.add_candidate_step sim) h

/-- The tracked candidate with maximal `score`; ties keep the earliest
(spec §4.2 asks for any deterministic tie-break). -/
def bestCandidate : List (HCandidate α) → Option (HCandidate α)
  | [] => none
  | c :: cs =>
    match bestCandidate cs with
    | none => some c
    | some b => if c.score < b.score then some b else some c

/-- Modelled from the spec: `PopBest()` (spec §4.2): return and remove the
candidate with maximal score provided `score ≥ scoreThreshold` (`none` if the
pool is empty or the best is below threshold), then run
`UpdateForSelection` on the remaining pool for the newly selected item. -/
def MmrHelper.pop_best (sim : ℕ → ℕ → α) (h : MmrHelper α) :
    Option ℕ × MmrHelper α :=
  match bestCandidate h.candidates with
  | none => (none, h)
  | some b =>
    if b.score < h.score_threshold then (none, h)
    else
      let rest := (h.candidates.filter (fun c => !(c.id == b.id))).map
        (HCandidate.update_for_selection sim h.lambda_mult b.embedding)
      (some b.id, { h with candidates := rest
                           selected := h.selected ++ [(b.id, b.embedding)] })

/-- `true` iff the pool is empty or its best score is below the threshold:
the two conditions under which `PopBest` returns `none`. -/
def MmrHelper.exhausted_or_below (h : MmrHelper α) : Bool :=
  match bestCandidate h.candidates with
  | none => true
  | some b => decide (b.score < h.score_threshold)

/-- A row of the search queries that select
`content_id, text_embedding, link_to_tags` (graph_store.py line 415). -/
structure AdjRow where
  content_id : ℕ
  text_embedding : ℕ
  link_to_tags : List Tag
  deriving DecidableEq, Repr

/-- `_Edge` (graph_store.py lines 131-135). -/
structure Edge where
  target_content_id : ℕ
  target_text_embedding : ℕ
  target_link_to_tags : List Tag
  deriving DecidableEq, Repr

/-- Building an `_Edge` from a row (graph_store.py lines 765-769);
`set(row.link_to_tags or [])` deduplicates the stored tag list. -/
def edgeOfRow (row : AdjRow) : Edge :=
  { target_content_id := row.content_id
    target_text_embedding := row.text_embedding
    target_link_to_tags := row.link_to_tags.eraseDups }

/-- The external collaborators of one `mmr_traversal_search` call (spec §1:
the embedding model and the storage query executor are consumed, not
implemented).  Each query kind is an oracle from its bound parameters to the
row sequence the storage engine returns. -/
structure StoreOracle (α : Type) where
  /-- Similarity between two abstract embedding vectors. -/
  sim : ℕ → ℕ → α
  /-- The embedding of the query string (`embed_query`). -/
  query_embedding : ℕ
  /-- Rows of the initial ANN similarity query, given its `LIMIT`. -/
  similarityRows : ℕ → List AdjRow
  /-- Rows of the adjacency query `link_from_tags CONTAINS (kind, value)`
  for one tag, given its `LIMIT`. -/
  tagRows : Tag → ℕ → List AdjRow
  /-- `link_to_tags` of one node (`_query_ids_and_link_to_tags_by_id`). -/
  link_to_tags_of : ℕ → List Tag

/-- `_get_outgoing_tags` (graph_store.py lines 710-734): union of the
`link_to_tags` sets of the given source ids. -/
def get_outgoing_tags (o : StoreOracle α) (source_ids : List ℕ) : List Tag :=
  source_ids.foldl (fun tags sid => setUnion tags (o.link_to_tags_of sid)) []

/-- One step of the `add_targets` callback of `_get_adjacent`
(graph_store.py lines 758-769): keep the first row observed per
`content_id`. -/
def addTarget (targets : List Edge) (row : AdjRow) : List Edge :=
  if targets.any (fun e => e.target_content_id == row.content_id) then targets
  else targets ++ [edgeOfRow row]

/-- `_get_adjacent` (graph_store.py lines 736-788): one adjacency query per
tag (each bounded by `LIMIT k_per_tag`), results keyed by target content id,
first row wins, returned in insertion order. -/
def get_adjacent (o : StoreOracle α) (tags : List Tag) (k_per_tag : ℕ) :
    List Edge :=
  tags.foldl (fun ts t => (o.tagRows t k_per_tag).foldl addTarget ts) []

/-- An adjacency query issued during `mmr_traversal_search`, for the audit
log: either from `fetch_neighborhood` (graph_store.py lines 426-454) or from
expanding a selected node with recorded depth `recorded_depth`
(lines 495-520). -/
inductive QEvent where
  | neighborhood (tag : Tag)
  | expand (selected_id : ℕ) (recorded_depth : ℕ) (tag : Tag)
  deriving DecidableEq, Repr

/-- The tag an adjacency query was issued for. -/
def QEvent.tag : QEvent → Tag
  | .neighborhood t => t
  | .expand _ _ t => t

/-- Traversal-local state of `mmr_traversal_search` (graph_store.py lines
402-424 and 485-486), plus the audit log of issued adjacency queries. -/
structure GsState (α : Type) where
  helper : MmrHelper α
  outgoing_tags : List (ℕ × List Tag)
  visited_tags : List Tag
  depths : List (ℕ × ℕ)
  qlog : List QEvent
  deriving Repr

/-- Keyword parameters of `mmr_traversal_search` (graph_store.py lines
358-369). -/
structure GsParams (α : Type) where
  k : ℕ
  depth : ℕ
  fetch_k : ℕ
  adjacent_k : ℕ
  lambda_mult : α
  score_threshold : α
  initial_roots : List ℕ
  deriving Repr

/-- `fetch_neighborhood` (graph_store.py lines 426-454): record the roots as
outgoing-tag-known, fetch the nodes adjacent to the roots' outgoing tags and
add the previously unknown ones as candidates.

NOTE (faithful to the source): line 433 `visited_tags =
self._get_outgoing_tags(neighborhood)` binds a variable local to
`fetch_neighborhood` — there is no `nonlocal visited_tags` — so the
enclosing `visited_tags` set of line 424 is left untouched, despite the
comment at lines 431-432 ("This prevents re-visiting them"). -/
def fetch_neighborhood (o : StoreOracle α) (p : GsParams α) (st : GsState α)
    (neighborhood : List ℕ) : GsState α :=
  let outgoing_tags := neighborhood.foldl (fun m cid => dictSet m cid []) st.outgoing_tags
  let visited_tags_local := get_outgoing_tags o neighborhood
  let adjacents := get_adjacent o visited_tags_local p.adjacent_k
  let qlog := st.qlog ++ visited_tags_local.map QEvent.neighborhood
  let acc := adjacents.foldl
    (fun (acc : List (ℕ × List Tag) × List (ℕ × ℕ)) adjacent =>
      if dictContains acc.1 adjacent.target_content_id then acc
      else (dictSet acc.1 adjacent.target_content_id adjacent.target_link_to_tags,
            acc.2 ++ [(adjacent.target_content_id, adjacent.target_text_embedding)]))
    (outgoing_tags, [])
  { st with helper := st.helper.add_candidates o.sim acc.2
            outgoing_tags := acc.1
            qlog := qlog }

/-- `fetch_initial_candidates` (graph_store.py lines 456-478): run the
top-`fetch_k` similarity search and add every id not yet known to
`outgoing_tags` as a depth-0 candidate, recording its outgoing tag set. -/
def fetch_initial_candidates (o : StoreOracle α) (p : GsParams α) (st : GsState α) :
    GsState α :=
  let fetched := o.similarityRows p.fetch_k
  let acc := fetched.foldl
    (fun (acc : List (ℕ × ℕ) × List (ℕ × List Tag)) row =>
      if dictContains acc.2 row.content_id then acc
      else (acc.1 ++ [(row.content_id, row.text_embedding)],
            dictSet acc.2 row.content_id row.link_to_tags.eraseDups))
    ([], st.outgoing_tags)
  { st with helper := st.helper.add_candidates o.sim acc.1
            outgoing_tags := acc.2 }

/-- Body of the `for adjacent in adjacents` loop (graph_store.py lines
523-544), threading `(outgoing_tags, new_candidates, depths)`: a target
already present in `outgoing_tags` is skipped entirely; a new target gets
its outgoing tag set recorded, becomes a new candidate, and its depth is set
to `next_depth` when that beats the recorded depth
(`depths.get(id, depth + 1)`). -/
def process_adjacent (p : GsParams α) (next_depth : ℕ)
    (acc : List (ℕ × List Tag) × List (ℕ × ℕ) × List (ℕ × ℕ))
    (adjacent : Edge) :
    List (ℕ × List Tag) × List (ℕ × ℕ) × List (ℕ × ℕ) :=
  if dictContains acc.1 adjacent.target_content_id then acc
  else
    let og := dictSet acc.1 adjacent.target_content_id adjacent.target_link_to_tags
    let new_candidates := acc.2.1 ++
      [(adjacent.target_content_id, adjacent.target_text_embedding)]
    let depths :=
      if next_depth < (dictLookup acc.2.2 adjacent.target_content_id).getD (p.depth + 1)
      then dictSet acc.2.2 adjacent.target_content_id next_depth
      else acc.2.2
    (og, new_candidates, depths)

/-- One iteration of the `for _ in range(k)` selection loop
(graph_store.py lines 489-545); `none` models the `break` on
`pop_best() is None`.  `depths[selected_id]` is a plain subscript in the
source; every id the helper can pop has a `depths` entry (see
`gs_mmr_depths_total`), so the `getD 0` default is never exercised. -/
def gs_mmr_step (o : StoreOracle α) (p : GsParams α) (st : GsState α) :
    Option (GsState α) :=
  match st.helper.pop_best o.sim with
  | (none, _) => none
  | (some selected_id, helper) =>
    let d := (dictLookup st.depths selected_id).getD 0
    let next_depth := d + 1
    if next_depth < p.depth then
      let link_to_tags := (dictLookup st.outgoing_tags selected_id).getD []
      let outgoing_tags := dictErase st.outgoing_tags selected_id
      let link_to_tags := link_to_tags.filter (fun t => !(st.visited_tags.contains t))
      let adjacents := get_adjacent o link_to_tags p.adjacent_k
      let qlog := st.qlog ++ link_to_tags.map (QEvent.expand selected_id d)
      let visited_tags := setUnion st.visited_tags link_to_tags
      let acc := adjacents.foldl (process_adjacent p next_depth)
        (outgoing_tags, [], st.depths)
      some { helper := helper.add_candidates o.sim acc.2.1
             outgoing_tags := acc.1
             visited_tags := visited_tags
             depths := acc.2.2
             qlog := qlog }
    else
      some { st with helper := helper }

/-- The selection loop, fuelled by the remaining number of `range(k)`
iterations. -/
def gs_mmr_loop (o : StoreOracle α) (p : GsParams α) :
    ℕ → GsState α → GsState α
  | 0, st => st
  | fuel + 1, st =>
    match gs_mmr_step o p st with
    | none => st
    | some st' => gs_mmr_loop o p fuel st'

/-- State of `mmr_traversal_search` when the selection loop is entered
(graph_store.py lines 402-486): empty helper, then `fetch_neighborhood` when
`initial_roots` is non-empty, then `fetch_initial_candidates` when
`fetch_k > 0`, then `depths = {candidate_id: 0 for candidate_id in
helper.candidate_ids()}`. -/
def gs_init_state (o : StoreOracle α) (p : GsParams α) : GsState α :=
  let helper : MmrHelper α :=
    { lambda_mult := p.lambda_mult
      score_threshold := p.score_threshold
      query_embedding := o.query_embedding
      candidates := []
      selected := [] }
  let st : GsState α :=
    { helper := helper, outgoing_tags := [], visited_tags := []
      depths := [], qlog := [] }
  let st := if p.initial_roots.isEmpty then st
            else fetch_neighborhood o p st p.initial_roots
  let st := if 0 < p.fetch_k then fetch_initial_candidates o p st else st
  { st with depths := st.helper.candidate_ids.map (fun cid => (cid, 0)) }

/-- `GraphStore.mmr_traversal_search` (graph_store.py lines 358-547),
returning the final traversal state; the source returns
`self._nodes_with_ids(helper.selected_ids)`, so the returned id sequence is
`(·).helper.selected_ids`. -/
def mmr_traversal_search (o : StoreOracle α) (p : GsParams α) : GsState α :=
  gs_mmr_loop o p p.k (gs_init_state o p)

/-- The external collaborators of one plain `traversal_search` call
(graph_store.py lines 549-679).  `similarityNodeRows` is the initial ANN
query selecting `content_id, link_to_tags` with `LIMIT k` (lines 584-589,
666-677); `tagTargets` is the `visit_nodes_query` selecting `content_id AS
target_content_id` for one `link_from_tags CONTAINS (kind, value)` bound tag
— it carries no `LIMIT` (lines 591-595); `link_to_tags_of` is the point
lookup `_query_ids_and_link_to_tags_by_id` (line 660), `none` when the store
holds no row for the id (the callback then receives no rows). -/
structure TraversalOracle where
  similarityNodeRows : ℕ → List (ℕ × List Tag)
  tagTargets : Tag → List ℕ
  link_to_tags_of : ℕ → Option (List Tag)

/-- The mutable state of `traversal_search` (graph_store.py lines 598-604):
`visited_ids` maps node id → recorded depth, `visited_tags` maps tag →
depth it was last queried at.  `visitLog` and `targetLog` are audit
instrumentation (like `qlog` for the MMR loop): `visitLog` records one
`(content_id, d)` event for every row processed by `visit_nodes(d, nodes)`
(each event is the discovery of a path of `d` expansion hops from a seed),
`targetLog` records one `(target_content_id, d + 1)` event for every row of
every adjacency query observed by `visit_targets(d, targets)`. -/
structure TvState where
  visited_ids : List (ℕ × ℕ)
  visited_tags : List (Tag × ℕ)
  visitLog : List (ℕ × ℕ)
  targetLog : List (ℕ × ℕ)
  deriving DecidableEq, Repr

/-- `visited_tags.get` for the tag-keyed Python dict of line 603. -/
def tagDictLookup (m : List (Tag × ℕ)) (k : Tag) : Option ℕ :=
  (m.find? (fun p => p.1 == k)).map Prod.snd

/-- `visited_tags[(kind, value)] = d` (insertion-ordered assignment). -/
def tagDictSet (m : List (Tag × ℕ)) (k : Tag) (v : ℕ) : List (Tag × ℕ) :=
  if m.any (fun p => p.1 == k) then m.map (fun p => if p.1 == k then (k, v) else p)
  else m ++ [(k, v)]

/-- One iteration of `for kind, value in node.link_to_tags` (graph_store.py
lines 627-633): a tag first seen, or re-seen at an equal-or-shallower depth,
gets `visited_tags[tag] = d` and joins the call's `outgoing_tags` set
(modelled as a first-insertion-ordered duplicate-free list). -/
def tvProcessNodeTag (depth d : ℕ) (acc : TvState × List Tag) (tag : Tag) :
    TvState × List Tag :=
  if d ≤ (tagDictLookup acc.1.visited_tags tag).getD depth then
    ({ acc.1 with visited_tags := tagDictSet acc.1.visited_tags tag d },
     if acc.2.contains tag then acc.2 else acc.2 ++ [tag])
  else acc

/-- One iteration of `for node in nodes` in `visit_nodes` (graph_store.py
lines 616-633): log the visit event, then `if d <= visited_ids.get(
content_id, depth): visited_ids[content_id] = d`, and when additionally
`d < depth and node.link_to_tags`, process the node's tags. -/
def tvProcessRow (depth d : ℕ) (acc : TvState × List Tag) (node : ℕ × List Tag) :
    TvState × List Tag :=
  let st := { acc.1 with visitLog := acc.1.visitLog ++ [(node.1, d)] }
  if d ≤ (dictLookup st.visited_ids node.1).getD depth then
    let st := { st with visited_ids := dictSet st.visited_ids node.1 d }
    if d < depth ∧ node.2 ≠ [] then
      node.2.foldl (tvProcessNodeTag depth d) (st, acc.2)
    else (st, acc.2)
  else (st, acc.2)

/-- One iteration of `for target in targets` in `visit_targets`
(graph_store.py lines 653-656): a target with `d < visited_ids.get(
content_id, depth)` joins `new_nodes_at_next_depth` (a set: first insertion
wins). -/
def tvCollectStep (depth d : ℕ) (m : List (ℕ × ℕ)) (ns : List ℕ) (t : ℕ) : List ℕ :=
  if d < (dictLookup m t).getD depth ∧ t ∉ ns then ns ++ [t] else ns

/-- `new_nodes_at_next_depth` of one `visit_targets` callback
(graph_store.py lines 652-656). -/
def tvCollectNew (depth d : ℕ) (m : List (ℕ × ℕ)) (targets : List ℕ) : List ℕ :=
  targets.foldl (tvCollectStep depth d m) []

/-- `for node_id in new_nodes_at_next_depth` (graph_store.py lines 658-664):
each new node's `link_to_tags` point lookup is issued, its callback running
`visit_nodes(d + 1, rows)` — `visit` is that continuation; a missing row
means the callback receives no rows and is a no-op. -/
def tvNodeLoopGen (o : TraversalOracle)
    (visit : ℕ → List (ℕ × List Tag) → TvState → TvState) (d : ℕ) :
    List ℕ → TvState → TvState
  | [], st => st
  | nid :: rest, st =>
    let st1 := match o.link_to_tags_of nid with
      | none => st
      | some tags2 => visit (d + 1) [(nid, tags2)] st
    tvNodeLoopGen o visit d rest st1

/-- `for kind, value in outgoing_tags` (graph_store.py lines 635-646): one
adjacency query per collected tag, each callback running
`visit_targets(d, rows)` (lines 648-664), sequentialized in insertion
order.  The target events are logged, the new nodes collected against the
map at callback time, then each is re-visited at depth `d + 1`. -/
def tvTagLoopGen (o : TraversalOracle) (depth : ℕ)
    (visit : ℕ → List (ℕ × List Tag) → TvState → TvState) (d : ℕ) :
    List Tag → TvState → TvState
  | [], st => st
  | tag :: rest, st =>
    let targets := o.tagTargets tag
    let st1 := { st with targetLog := st.targetLog ++ targets.map (fun t => (t, d + 1)) }
    let st2 := tvNodeLoopGen o visit d (tvCollectNew depth d st1.visited_ids targets) st1
    tvTagLoopGen o depth visit d rest st2

/-- `visit_nodes(d, nodes)` (graph_store.py lines 605-646): the per-row loop
collecting `outgoing_tags`, then the per-tag adjacency queries.  Recursion
is fuelled: each level consumes one unit and recursion into level `d + 1`
only happens from the tag loop, whose tags are collected only under
`d < depth` (line 624), so a top-level call with `fuel = depth + 1` never
reaches the fuel-exhausted branch. -/
def tvVisit (o : TraversalOracle) (depth : ℕ) :
    ℕ → ℕ → List (ℕ × List Tag) → TvState → TvState
  | 0, _, _, st => st
  | fuel + 1, d, nodes, st =>
    let acc := nodes.foldl (tvProcessRow depth d) (st, [])
    tvTagLoopGen o depth (fun d' ns st' => tvVisit o depth fuel d' ns st') d acc.2 acc.1

/-- `GraphStore.traversal_search` (graph_store.py lines 549-679): seed
`visit_nodes(0, rows)` on the `LIMIT k` similarity rows (lines 666-677) and
run to quiescence; the source returns
`self._nodes_with_ids(visited_ids.keys())`, i.e. the keys of the final
`(·).visited_ids`. -/
def traversal_search (o : TraversalOracle) (k depth : ℕ) : TvState :=
  tvVisit o depth (depth + 1) 0 (o.similarityNodeRows k)
    { visited_ids := [], visited_tags := [], visitLog := [], targetLog := [] }

/-- The minimum depth over all logged visit events of one node: the minimum
number of expansion hops from any seed over all paths discovered during the
call, `none` when the node was never visited. -/
def minVisitDepth (log : List (ℕ × ℕ)) (i : ℕ) : Option ℕ :=
  ((log.filter (fun e => e.1 == i)).map Prod.snd).min?

/-- Collecting `[get_result(node_id) for node_id in ids]`
(graph_store.py lines 351-356): the comprehension raises
`ValueError(f"No node with ID ...")` at the first id whose entry is still
`None`. -/
def collect_results (results : List (ℕ × Option (ℕ × ℕ))) :
    List ℕ → Except String (List (ℕ × ℕ))
  | [] => Except.ok []
  | node_id :: rest =>
    match (dictLookup results node_id).getD none with
    | none => Except.error ("No node with ID " ++ toString node_id)
    | some node => (collect_results results rest).map (fun l => node :: l)

/-- The fetch phase of `_nodes_with_ids` for one requested id
(graph_store.py lines 343-349): an id already marked in `results` is not
queried again; a fresh id is marked and its point lookup issued, the
callback storing the returned row (if any) under the row's content id. -/
def nodesFetchStep (store : ℕ → Option ℕ)
    (acc : List (ℕ × Option (ℕ × ℕ)) × List ℕ) (node_id : ℕ) :
    List (ℕ × Option (ℕ × ℕ)) × List ℕ :=
  if dictContains acc.1 node_id then acc
  else
    (dictSet acc.1 node_id ((store node_id).map (fun pl => (node_id, pl))),
     acc.2 ++ [node_id])

/-- `_nodes_with_ids` (graph_store.py lines 328-356).  The store's point
lookup `content_id = ?` is the oracle `store : ℕ → Option ℕ` giving the
payload of the stored row, if any; a hydrated node is `(content_id,
payload)`.  Returns the hydrated nodes (or the not-found error) together
with the list of ids actually queried. -/
def nodes_with_ids (store : ℕ → Option ℕ) (ids : List ℕ) :
    Except String (List (ℕ × ℕ)) × List ℕ :=
  let acc := ids.foldl (nodesFetchStep store) ([], [])
  (collect_results acc.1 ids, acc.2)

/-- `MetadataIndexingMode` (graph_store.py lines 62-67). -/
inductive MetadataIndexingMode where
  | default_to_unsearchable
  | default_to_searchable
  deriving DecidableEq, Repr

/-- Normalized metadata indexing policy (graph_store.py line 70). -/
abbrev MetadataIndexingPolicy := MetadataIndexingMode × List String

/-- `_is_metadata_field_indexed` (graph_store.py lines 73-79). -/
def is_metadata_field_indexed (field_name : String)
    (policy : MetadataIndexingPolicy) : Bool :=
  match policy.1 with
  | .default_to_unsearchable => policy.2.contains field_name
  | .default_to_searchable => !(policy.2.contains field_name)

/-- One conjunct of the generated WHERE clause.  The CQL texts of the source
(graph_store.py lines 859, 862, 866) are represented symbolically — the spec
excludes the wire-level query language (§1). -/
inductive WhereBlock where
  | contentId
  | linkFromTags
  | metadataEntry (key : String)
  deriving DecidableEq, Repr

/-- Processing one (sorted) metadata key of `_extract_where_clause_cql`
(graph_store.py lines 864-870): an indexed key contributes a
`metadata_s[key] = ?` block, a non-indexed key raises `ValueError`. -/
def whereClauseStep (policy : MetadataIndexingPolicy)
    (acc : Except String (List WhereBlock)) (key : String) :
    Except String (List WhereBlock) :=
  acc.bind (fun blocks =>
    if is_metadata_field_indexed key policy then
      Except.ok (blocks ++ [WhereBlock.metadataEntry key])
    else
      Except.error "Non-indexed metadata fields cannot be used in queries.")

/-- `_extract_where_clause_cql` (graph_store.py lines 850-875): the blocks
of the WHERE clause in generation order; iterating `sorted(metadata_keys)`,
a key not indexed under the policy raises `ValueError("Non-indexed metadata
fields cannot be used in queries.")` before any query is prepared or
issued. -/
def extract_where_clause_cql (policy : MetadataIndexingPolicy)
    (has_id : Bool) (metadata_keys : List String) (has_link_from_tags : Bool) :
    Except String (List WhereBlock) :=
  let wc_blocks : List WhereBlock :=
    (if has_id then [WhereBlock.contentId] else []) ++
    (if has_link_from_tags then [WhereBlock.linkFromTags] else [])
  (metadata_keys.insertionSort (fun a b => a ≤ b)).foldl
    (whereClauseStep policy) (Except.ok wc_blocks)

/-! ### Concrete stores used to exercise the theorems -/

/-- Empty store: every query returns no rows. -/
def emptyOracle : StoreOracle ℤ :=
  { sim := fun _ _ => 0
    query_embedding := 100
    similarityRows := fun _ => []
    tagRows := fun _ _ => []
    link_to_tags_of := fun _ => [] }

/-- Parameters with `k = 2` over the empty store. -/
def emptyParams : GsParams ℤ :=
  { k := 2, depth := 2, fetch_k := 10, adjacent_k := 10
    lambda_mult := 1, score_threshold := 0, initial_roots := [] }

/-- A store with one similarity hit (node 1, outgoing tag `(1,1)`) whose
expansion reaches node 2. -/
def expandOracle : StoreOracle ℤ :=
  { sim := fun _ _ => 1
    query_embedding := 100
    similarityRows := fun _ => [{ content_id := 1, text_embedding := 1
                                  link_to_tags := [(1, 1)] }]
    tagRows := fun t _ => if t = (1, 1) then
        [{ content_id := 2, text_embedding := 2, link_to_tags := [] }]
      else []
    link_to_tags_of := fun _ => [] }

/-- Parameters selecting a single node with expansion allowed. -/
def expandParams : GsParams ℤ :=
  { k := 1, depth := 2, fetch_k := 10, adjacent_k := 10
    lambda_mult := 1, score_threshold := -1, initial_roots := [] }

/-- A store exhibiting the `fetch_neighborhood` visited-tags bug: root 0 has
outgoing tag `(1,1)` (reaching node 5), and the top similarity hit, node 1,
carries the same outgoing tag `(1,1)`. -/
def rootTagOracle : StoreOracle ℤ :=
  { sim := fun _ e => if e = 1 then 1 else 0
    query_embedding := 100
    similarityRows := fun _ => [{ content_id := 1, text_embedding := 1
                                  link_to_tags := [(1, 1)] }]
    tagRows := fun t _ => if t = (1, 1) then
        [{ content_id := 5, text_embedding := 5, link_to_tags := [] }]
      else []
    link_to_tags_of := fun sid => if sid = 0 then [(1, 1)] else [] }

/-- Parameters running `rootTagOracle` with `initial_roots = [0]`. -/
def rootTagParams : GsParams ℤ :=
  { k := 1, depth := 2, fetch_k := 1, adjacent_k := 2
    lambda_mult := 1, score_threshold := -100, initial_roots := [0] }

/-- A store where node 3 is first discovered at depth 2 (via 1 → 2 → 3) and
later rediscovered at depth 1 (via 4 → 3): similarity hits 1 (score 10) and
4 (score 8); tag `(1,10)` of node 1 reaches node 2 (score 9); tag `(1,20)`
of node 2 reaches node 3 (score 1); tag `(1,30)` of node 4 also reaches
node 3. -/
def shallowerOracle : StoreOracle ℤ :=
  { sim := fun _ e => if e = 1 then 10 else if e = 2 then 9
                      else if e = 4 then 8 else 1
    query_embedding := 100
    similarityRows := fun _ =>
      [{ content_id := 1, text_embedding := 1, link_to_tags := [(1, 10)] },
       { content_id := 4, text_embedding := 4, link_to_tags := [(1, 30)] }]
    tagRows := fun t _ =>
      if t = (1, 10) then
        [{ content_id := 2, text_embedding := 2, link_to_tags := [(1, 20)] }]
      else if t = (1, 20) then
        [{ content_id := 3, text_embedding := 3, link_to_tags := [] }]
      else if t = (1, 30) then
        [{ content_id := 3, text_embedding := 3, link_to_tags := [] }]
      else []
    link_to_tags_of := fun _ => [] }

/-- Parameters selecting all four nodes of `shallowerOracle` in order
1, 2, 4, 3 (`lambda_mult = 1` keeps every score at its similarity). -/
def shallowerParams : GsParams ℤ :=
  { k := 4, depth := 4, fetch_k := 10, adjacent_k := 10
    lambda_mult := 1, score_threshold := -100, initial_roots := [] }

/-- A store where target 7 is reachable through both tag `(1,1)` and tag
`(1,2)`, with different row embeddings, so `_get_adjacent` sees it twice. -/
def twoTagOracle : StoreOracle ℤ :=
  { sim := fun _ _ => 0
    query_embedding := 100
    similarityRows := fun _ => []
    tagRows := fun t _ =>
      if t = (1, 1) then
        [{ content_id := 7, text_embedding := 1, link_to_tags := [] }]
      else if t = (1, 2) then
        [{ content_id := 7, text_embedding := 2, link_to_tags := [] },
         { content_id := 8, text_embedding := 3, link_to_tags := [] }]
      else []
    link_to_tags_of := fun _ => [] }

/-- A point-lookup store holding nodes 1 and 2 only. -/
def twoNodeStore : ℕ → Option ℕ :=
  fun i => if i = 1 then some 10 else if i = 2 then some 20 else none

/-- A plain-traversal store where node 4 is first discovered at depth 2
(seed 1 → tag `(1,1)` → node 3 → tag `(1,3)` → node 4) and later
rediscovered at depth 1 (seed 2 → tag `(1,2)` → node 4): the final map must
record the minimum, depth 1. -/
def plainOracle : TraversalOracle :=
  { similarityNodeRows := fun _ => [(1, [(1, 1)]), (2, [(1, 2)])]
    tagTargets := fun t => if t = (1, 1) then [3] else if t = (1, 2) then [4]
      else if t = (1, 3) then [4] else []
    link_to_tags_of := fun nid => if nid = 3 then some [(1, 3)] else some [] }

/-! ### Invariants -/

/-- Well-formedness of the helper pool: selected ids are pairwise distinct,
candidate ids are pairwise distinct, and no id is both selected and a
candidate. -/
def MmrHelper.Inv (h : MmrHelper α) : Prop :=
  h.selected_ids.Nodup ∧ h.candidate_ids.Nodup ∧
    ∀ i ∈ h.candidate_ids, i ∉ h.selected_ids

/-- Every candidate id has an entry in the `depths` map. -/
def GsState.DepthsCover (st : GsState α) : Prop :=
  ∀ c ∈ st.helper.candidates, dictContains st.depths c.id = true

/-- Every expansion query in the log was issued from a selected node whose
recorded depth `d` satisfied `d + 1 < depth`. -/
def ExpandBounded (dep : ℕ) (L : List QEvent) : Prop :=
  ∀ id d t, QEvent.expand id d t ∈ L → d + 1 < dep

/-- Relation between the rows processed so far by `_get_adjacent`'s
`add_targets` callback and its `targets` accumulator: the kept edges carry
pairwise distinct target content ids, the key set equals the keys of the
processed rows, and every kept edge stems from the first processed row with
its key. -/
def EdgeKeyed (processed : List AdjRow) (acc : List Edge) : Prop :=
  (acc.map Edge.target_content_id).Nodup ∧
  (∀ i, i ∈ acc.map Edge.target_content_id ↔
    ∃ r ∈ processed, r.content_id = i) ∧
  (∀ e ∈ acc, ∃ r,
    processed.find? (fun r => r.content_id == e.target_content_id) = some r ∧
    e = edgeOfRow r)

/-- The shortest-depth invariant of the plain traversal: every entry of the
visited-depth map equals the minimum depth over the node's logged visit
events (in particular, a node is in the map iff it was visited at all). -/
def TvState.MapMin (st : TvState) : Prop :=
  ∀ i, dictLookup st.visited_ids i = minVisitDepth st.visitLog i

/-- Recorded depths never worsen as the traversal progresses: an entry of
the earlier map is still present later, with an equal or smaller value. -/
def TvMapLe (st st' : TvState) : Prop :=
  ∀ i v, dictLookup st.visited_ids i = some v →
    ∃ v', dictLookup st'.visited_ids i = some v' ∧ v' ≤ v

/-- Effect summary of one traversal phase taking state `st` to state `R`:
the shortest-depth invariant holds in `R`, recorded depths only improve,
visit events are never dropped, and every observed adjacency target either
was already logged, or does not undercut its recorded depth, or names an id
the store holds no row for. -/
def TvOut (o : TraversalOracle) (st R : TvState) : Prop :=
  R.MapMin ∧ TvMapLe st R ∧ (∀ e ∈ st.visitLog, e ∈ R.visitLog) ∧
  ∀ e ∈ R.targetLog, e ∈ st.targetLog ∨
    (∃ v, dictLookup R.visited_ids e.1 = some v ∧ v ≤ e.2) ∨
    o.link_to_tags_of e.1 = none

end GraphStore

namespace Cassandra

variable {α : Type} [LinearOrderedCommRing α]

/-- The `_Candidate` score field is in sync with its components:
`score = similarity_to_query - redundancy`.  Holds by construction
(cassandra.py line 82) and is preserved by `update_for_selection`
(line 93). -/
def Candidate.ScoreInv (c : Candidate α) : Prop :=
  c.score = c.similarity_to_query - c.redundancy

end Cassandra

/-! ## Theorems -/

namespace Cassandra

variable {α : Type} [LinearOrderedCommRing α]

theorem Candidate.update_redundancy_le (sim : ℕ → ℕ → α) (lm : α) (sel : ℕ)
    (c : Candidate α) :
    c.redundancy ≤ (c.update_for_selection sim lm sel).redundancy := by
  unfold Candidate.update_for_selection
  dsimp only
  split
  · exact le_of_lt (by assumption)
  · exact le_refl _

theorem Candidate.update_simq_eq (sim : ℕ → ℕ → α) (lm : α) (sel : ℕ)
    (c : Candidate α) :
    (c.update_for_selection sim lm sel).similarity_to_query =
      c.similarity_to_query := by
  unfold Candidate.update_for_selection
  dsimp only
  split <;> rfl

theorem Candidate.update_score_inv (sim : ℕ → ℕ → α) (lm : α) (sel : ℕ)
    (c : Candidate α) (h : c.ScoreInv) :
    (c.update_for_selection sim lm sel).ScoreInv := by
  unfold Candidate.ScoreInv at *
  unfold Candidate.update_for_selection
  dsimp only
  split
  · rfl
  · exact h

theorem Candidate.update_score_le (sim : ℕ → ℕ → α) (lm : α) (sel : ℕ)
    (c : Candidate α) (h : c.ScoreInv) :
    (c.update_for_selection sim lm sel).score ≤ c.score := by
  unfold Candidate.ScoreInv at h
  unfold Candidate.update_for_selection
  dsimp only
  split
  · rename_i hlt
    dsimp only
    rw [h]
    have := le_of_lt hlt
    linarith
  · exact le_refl _

theorem Candidate.ofEmbedding_score_inv (sim : ℕ → ℕ → α) (emb : ℕ)
    (lm : α) (qe : ℕ) : (Candidate.ofEmbedding sim emb lm qe).ScoreInv := rfl

theorem Candidate.foldl_update_score_inv (sim : ℕ → ℕ → α) (lm : α)
    (sels : List ℕ) (c : Candidate α) (h : c.ScoreInv) :
    (sels.foldl (fun c s => c.update_for_selection sim lm s) c).ScoreInv := by
  induction sels generalizing c with
  | nil => exact h
  | cons s rest ih => exact ih _ (Candidate.update_score_inv sim lm s c h)

theorem Candidate.afterSelections_score_inv (sim : ℕ → ℕ → α) (lm : α)
    (qe emb : ℕ) (sels : List ℕ) :
    (Candidate.afterSelections sim lm qe emb sels).ScoreInv :=
  Candidate.foldl_update_score_inv sim lm sels _
    (Candidate.ofEmbedding_score_inv sim emb lm qe)

/-- C2: for every candidate as the MMR traversal has evolved it (built by
`_Candidate.__init__`, then updated once per already-selected embedding),
one further call to `update_for_selection` — with any selected embedding —
never increases the candidate's `score` and never decreases its
`redundancy`; hence over the lifetime of one traversal the redundancy only
grows and the score is monotonically non-increasing. -/
theorem candidate_update_score_monotone (sim : ℕ → ℕ → α) (lambda_mult : α)
    (query_embedding embedding : ℕ) (selections : List ℕ) (selection : ℕ) :
    ((Candidate.afterSelections sim lambda_mult query_embedding embedding
        selections).update_for_selection sim lambda_mult selection).score ≤
      (Candidate.afterSelections sim lambda_mult query_embedding embedding
        selections).score ∧
    (Candidate.afterSelections sim lambda_mult query_embedding embedding
        selections).redundancy ≤
      ((Candidate.afterSelections sim lambda_mult query_embedding embedding
        selections).update_for_selection sim lambda_mult
        selection).redundancy :=
  ⟨Candidate.update_score_le sim lambda_mult selection _
      (Candidate.afterSelections_score_inv sim lambda_mult query_embedding
        embedding selections),
   Candidate.update_redundancy_le sim lambda_mult selection _⟩

/-- C9: when the initial similarity fetch of
`CassandraKnowledgeStore.mmr_traversal_search` returns zero rows (empty
store, or `LIMIT fetch_k = 0`), the call fails with the `ValueError` that
CPython's `max` raises on an empty sequence, instead of returning an empty
result. -/
theorem mmr_empty_fetch_raises (sim : ℕ → ℕ → α) (query_embedding : ℕ)
    (edges : ℕ → List EdgeRow) (k depth : ℕ)
    (lambda_mult score_threshold : α) :
    mmr_traversal_search sim query_embedding [] edges k depth lambda_mult
      score_threshold =
      Except.error "ValueError: max() arg is an empty sequence" := rfl

end Cassandra

namespace GraphStore

variable {α : Type} [LinearOrderedCommRing α]

theorem whereClauseStep_error (policy : MetadataIndexingPolicy) (e : String)
    (key : String) :
    whereClauseStep policy (Except.error e) key = Except.error e := rfl

theorem whereClauseFold_error (policy : MetadataIndexingPolicy)
    (l : List String) :
    ∀ acc : Except String (List WhereBlock),
      ((∃ key ∈ l, is_metadata_field_indexed key policy = false) ∨
        ∃ e, acc = Except.error e) →
      ∃ msg, l.foldl (whereClauseStep policy) acc = Except.error msg := by
  induction l with
  | nil =>
    intro acc h
    rcases h with ⟨key, hmem, _⟩ | ⟨e, he⟩
    · exact absurd hmem (List.not_mem_nil key)
    · exact ⟨e, by simpa using he⟩
  | cons x xs ih =>
    intro acc h
    rcases h with ⟨key, hmem, hbad⟩ | ⟨e, he⟩
    · rcases List.mem_cons.mp hmem with rfl | hxs
      · -- the head key is bad: after this step the accumulator is an error
        rcases acc with e | blocks
        · exact ih _ (Or.inr ⟨e, rfl⟩)
        · refine ih _ (Or.inr ⟨"Non-indexed metadata fields cannot be used in queries.", ?_⟩)
          simp [whereClauseStep, hbad, Except.bind]
      · exact ih _ (Or.inl ⟨key, hxs, hbad⟩)
    · subst he
      exact ih _ (Or.inr ⟨e, rfl⟩)

/-- C8: a metadata filter that references a field not indexed under the
store's metadata indexing policy makes `_extract_where_clause_cql` raise
`ValueError` synchronously.  In `mmr_traversal_search`, `traversal_search`,
`similarity_search` and `metadata_search` this clause extraction runs while
building the prepared statement, before any storage query is issued, so a
non-indexed filter field is never silently ignored. -/
theorem extract_where_clause_rejects_non_indexed
    (policy : MetadataIndexingPolicy) (has_id : Bool)
    (metadata_keys : List String) (has_link_from_tags : Bool)
    (h : ∃ key ∈ metadata_keys, is_metadata_field_indexed key policy = false) :
    ∃ msg, extract_where_clause_cql policy has_id metadata_keys
      has_link_from_tags = Except.error msg := by
  unfold extract_where_clause_cql
  refine whereClauseFold_error policy _ _ (Or.inl ?_)
  rcases h with ⟨key, hmem, hbad⟩
  exact ⟨key, ((metadata_keys.perm_insertionSort _).mem_iff).mpr hmem, hbad⟩

/-- Witness for C8: the policy produced by `metadata_indexing = "none"`
(`DEFAULT_TO_UNSEARCHABLE` with no allowed fields) rejects a filter on
field `"foo"`. -/
theorem extract_where_clause_rejects_non_indexed_witness :
    (∃ key ∈ ["foo"], is_metadata_field_indexed key
      (MetadataIndexingMode.default_to_unsearchable, []) = false) ∧
    ∃ msg, extract_where_clause_cql
      (MetadataIndexingMode.default_to_unsearchable, []) false ["foo"] false =
      Except.error msg :=
  ⟨⟨"foo", by decide, rfl⟩,
   extract_where_clause_rejects_non_indexed _ false ["foo"] false
     ⟨"foo", by decide, rfl⟩⟩

theorem HCandidate.update_id (sim : ℕ → ℕ → α) (lm : α) (sel : ℕ)
    (c : HCandidate α) : (c.update_for_selection sim lm sel).id = c.id := by
  unfold HCandidate.update_for_selection
  dsimp only
  split <;> rfl

theorem bestCandidate_mem :
    ∀ {l : List (HCandidate α)} {b : HCandidate α}, bestCandidate l = some b → b ∈ l := by
  intro l
  induction l with
  | nil => intro b h; simp [bestCandidate] at h
  | cons c cs ih =>
    intro b h
    unfold bestCandidate at h
    cases hcs : bestCandidate cs with
    | none =>
      rw [hcs] at h
      simp only [Option.some_inj] at h
      subst h
      exact List.mem_cons_self c cs
    | some b' =>
      rw [hcs] at h
      dsimp only at h
      split at h
      · simp only [Option.some_inj] at h
        subst h
        exact List.mem_cons_of_mem c (ih hcs)
      · simp only [Option.some_inj] at h
        subst h
        exact List.mem_cons_self c cs

theorem MmrHelper.tracked_iff (h : MmrHelper α) (i : ℕ) :
    h.tracked i = true ↔ i ∈ h.candidate_ids ∨ i ∈ h.selected_ids := by
  simp [MmrHelper.tracked, MmrHelper.candidate_ids, MmrHelper.selected_ids,
    List.any_eq_true, List.mem_map, beq_iff_eq]

theorem MmrHelper.inv_append (h : MmrHelper α) (c : HCandidate α) (hinv : h.Inv)
    (hid : c.id ∉ h.candidate_ids) (hsel : c.id ∉ h.selected_ids) :
    MmrHelper.Inv { h with candidates := h.candidates ++ [c] } := by
  obtain ⟨h1, h2, h3⟩ := hinv
  refine ⟨h1, ?_, ?_⟩
  · unfold MmrHelper.candidate_ids
    dsimp only
    rw [List.map_append]
    refine h2.append (List.nodup_singleton _) ?_
    intro a ha hb
    simp only [List.map_cons, List.map_nil, List.mem_singleton] at hb
    exact hid (hb ▸ ha)
  · intro i hi
    unfold MmrHelper.candidate_ids at hi
    dsimp only at hi
    rw [List.map_append] at hi
    rcases List.mem_append.mp hi with hi | hi
    · exact h3 i hi
    · simp only [List.map_cons, List.map_nil, List.mem_singleton] at hi
      subst hi
      exact hsel

theorem MmrHelper.add_candidate_step_selected (sim : ℕ → ℕ → α)
    (h : MmrHelper α) (p : ℕ × ℕ) :
    (h.add_candidate_step sim p).selected = h.selected := by
  unfold MmrHelper.add_candidate_step
  split <;> rfl

theorem MmrHelper.add_candidates_selected (sim : ℕ → ℕ → α)
    (new : List (ℕ × ℕ)) : ∀ h : MmrHelper α,
    (h.add_candidates sim new).selected = h.selected := by
  induction new with
  | nil => intro h; rfl
  | cons p ps ih =>
    intro h
    show ((h.add_candidate_step sim p).add_candidates sim ps).selected = _
    rw [ih, MmrHelper.add_candidate_step_selected]

theorem MmrHelper.add_candidate_step_inv (sim : ℕ → ℕ → α) (h : MmrHelper α)
    (p : ℕ × ℕ) (hinv : h.Inv) : (h.add_candidate_step sim p).Inv := by
  unfold MmrHelper.add_candidate_step
  split
  · exact hinv
  · rename_i htr
    have hnot : ¬ (p.1 ∈ h.candidate_ids ∨ p.1 ∈ h.selected_ids) :=
      fun hc => htr ((h.tracked_iff p.1).mpr hc)
    push_neg at hnot
    exact h.inv_append _ hinv hnot.1 hnot.2

theorem MmrHelper.add_candidates_inv (sim : ℕ → ℕ → α)
    (new : List (ℕ × ℕ)) : ∀ h : MmrHelper α, h.Inv →
    (h.add_candidates sim new).Inv := by
  induction new with
  | nil => intro h hinv; exact hinv
  | cons p ps ih =>
    intro h hinv
    show ((h.add_candidate_step sim p).add_candidates sim ps).Inv
    exact ih _ (h.add_candidate_step_inv sim p hinv)

theorem MmrHelper.pop_best_none (sim : ℕ → ℕ → α) (h : MmrHelper α)
    (hp : (h.pop_best sim).1 = none) :
    (h.pop_best sim).2 = h ∧ h.exhausted_or_below = true := by
  unfold MmrHelper.pop_best at hp ⊢
  unfold MmrHelper.exhausted_or_below
  cases hb : bestCandidate h.candidates with
  | none => exact ⟨rfl, rfl⟩
  | some b =>
    rw [hb] at hp
    dsimp only at hp ⊢
    by_cases hlt : b.score < h.score_threshold
    · rw [if_pos hlt] at hp ⊢
      exact ⟨rfl, by simpa using hlt⟩
    · rw [if_neg hlt] at hp
      simp at hp

theorem MmrHelper.pop_best_some (sim : ℕ → ℕ → α) (h : MmrHelper α) (i : ℕ)
    (hp : (h.pop_best sim).1 = some i) :
    ∃ b ∈ h.candidates, b.id = i ∧
      (h.pop_best sim).2.selected = h.selected ++ [(b.id, b.embedding)] ∧
      (h.pop_best sim).2.candidates =
        (h.candidates.filter (fun c => !(c.id == b.id))).map
          (HCandidate.update_for_selection sim h.lambda_mult b.embedding) := by
  unfold MmrHelper.pop_best at hp ⊢
  cases hb : bestCandidate h.candidates with
  | none =>
    rw [hb] at hp
    simp at hp
  | some b =>
    rw [hb] at hp
    dsimp only at hp ⊢
    by_cases hlt : b.score < h.score_threshold
    · rw [if_pos hlt] at hp
      simp at hp
    · rw [if_neg hlt] at hp ⊢
      refine ⟨b, bestCandidate_mem hb, ?_, rfl, rfl⟩
      simpa using hp

theorem MmrHelper.pop_best_inv (sim : ℕ → ℕ → α) (h : MmrHelper α)
    (hinv : h.Inv) : (h.pop_best sim).2.Inv := by
  cases hp : (h.pop_best sim).1 with
  | none => exact ((h.pop_best_none sim hp).1.symm ▸ hinv)
  | some i =>
    obtain ⟨b, hbmem, hbid, hsel, hcand⟩ := h.pop_best_some sim i hp
    obtain ⟨hselN, hcandN, hdisj⟩ := hinv
    have hbin : b.id ∈ h.candidate_ids := List.mem_map_of_mem HCandidate.id hbmem
    refine ⟨?_, ?_, ?_⟩
    · show ((h.pop_best sim).2.selected.map Prod.fst).Nodup
      rw [hsel, List.map_append]
      simp only [List.map_cons, List.map_nil]
      refine hselN.append (List.nodup_singleton _) ?_
      intro a ha hb'
      simp only [List.mem_singleton] at hb'
      subst hb'
      exact hdisj b.id hbin ha
    · show ((h.pop_best sim).2.candidates.map HCandidate.id).Nodup
      rw [hcand, List.map_map]
      have hids : ((h.candidates.filter (fun c => !(c.id == b.id))).map
          (HCandidate.id ∘ HCandidate.update_for_selection sim h.lambda_mult b.embedding)) =
          (h.candidates.filter (fun c => !(c.id == b.id))).map HCandidate.id := by
        apply List.map_congr_left
        intro c _
        exact HCandidate.update_id sim h.lambda_mult b.embedding c
      rw [hids]
      exact ((List.filter_sublist h.candidates).map HCandidate.id).nodup hcandN
    · intro i' hi
      show i' ∉ (h.pop_best sim).2.selected_ids
      unfold MmrHelper.selected_ids
      rw [hsel, List.map_append]
      simp only [List.map_cons, List.map_nil]
      rw [List.mem_append, List.mem_singleton]
      unfold MmrHelper.candidate_ids at hi
      rw [hcand, List.map_map] at hi
      obtain ⟨c, hc, hcid⟩ := List.mem_map.mp hi
      simp only [Function.comp] at hcid
      have hcfil := List.mem_filter.mp hc
      have hcid' : c.id = i' :=
        (HCandidate.update_id sim h.lambda_mult b.embedding c).symm.trans hcid
      have hne : c.id ≠ b.id := by simpa using hcfil.2
      rintro (hisel | rfl)
      · exact hdisj i' (List.mem_map.mpr ⟨c, hcfil.1, hcid'⟩) hisel
      · exact hne hcid'

theorem fetch_neighborhood_helper (o : StoreOracle α) (p : GsParams α)
    (st : GsState α) (roots : List ℕ) :
    (fetch_neighborhood o p st roots).helper.selected = st.helper.selected ∧
    (st.helper.Inv → (fetch_neighborhood o p st roots).helper.Inv) := by
  unfold fetch_neighborhood
  dsimp only
  exact ⟨MmrHelper.add_candidates_selected o.sim _ st.helper,
    fun h => MmrHelper.add_candidates_inv o.sim _ st.helper h⟩

theorem fetch_initial_candidates_helper (o : StoreOracle α) (p : GsParams α)
    (st : GsState α) :
    (fetch_initial_candidates o p st).helper.selected = st.helper.selected ∧
    (st.helper.Inv → (fetch_initial_candidates o p st).helper.Inv) := by
  unfold fetch_initial_candidates
  dsimp only
  exact ⟨MmrHelper.add_candidates_selected o.sim _ st.helper,
    fun h => MmrHelper.add_candidates_inv o.sim _ st.helper h⟩

theorem emptyHelper_inv (lm th : α) (qe : ℕ) :
    MmrHelper.Inv { lambda_mult := lm, score_threshold := th
                    query_embedding := qe, candidates := [], selected := [] } := by
  refine ⟨List.nodup_nil, List.nodup_nil, ?_⟩
  intro i hi
  simp [MmrHelper.candidate_ids] at hi

theorem gs_init_state_selected (o : StoreOracle α) (p : GsParams α) :
    (gs_init_state o p).helper.selected = [] := by
  unfold gs_init_state
  dsimp only
  split
  · rw [(fetch_initial_candidates_helper o p _).1]
    split
    · rfl
    · rw [(fetch_neighborhood_helper o p _ _).1]
  · split
    · rfl
    · rw [(fetch_neighborhood_helper o p _ _).1]

theorem gs_init_state_inv (o : StoreOracle α) (p : GsParams α) :
    (gs_init_state o p).helper.Inv := by
  unfold gs_init_state
  dsimp only
  split
  · refine (fetch_initial_candidates_helper o p _).2 ?_
    split
    · exact emptyHelper_inv _ _ _
    · exact (fetch_neighborhood_helper o p _ _).2 (emptyHelper_inv _ _ _)
  · split
    · exact emptyHelper_inv _ _ _
    · exact (fetch_neighborhood_helper o p _ _).2 (emptyHelper_inv _ _ _)

theorem gs_mmr_step_none (o : StoreOracle α) (p : GsParams α) (st : GsState α)
    (hstep : gs_mmr_step o p st = none) :
    st.helper.exhausted_or_below = true := by
  unfold gs_mmr_step at hstep
  rcases hpop : st.helper.pop_best o.sim with ⟨fst, helper⟩
  rw [hpop] at hstep
  cases fst with
  | none =>
    have h1 : (st.helper.pop_best o.sim).1 = none := by rw [hpop]
    exact (st.helper.pop_best_none o.sim h1).2
  | some selected_id =>
    dsimp only at hstep
    split at hstep <;> simp at hstep

theorem gs_mmr_step_some (o : StoreOracle α) (p : GsParams α) (st st' : GsState α)
    (hstep : gs_mmr_step o p st = some st') :
    (st.helper.Inv → st'.helper.Inv) ∧
    st'.helper.selected_ids.length = st.helper.selected_ids.length + 1 := by
  unfold gs_mmr_step at hstep
  rcases hpop : st.helper.pop_best o.sim with ⟨fst, helper⟩
  rw [hpop] at hstep
  cases fst with
  | none => simp at hstep
  | some selected_id =>
    dsimp only at hstep
    have h1 : (st.helper.pop_best o.sim).1 = some selected_id := by rw [hpop]
    have hInv : st.helper.Inv → helper.Inv := by
      intro h
      have := st.helper.pop_best_inv o.sim h
      rw [hpop] at this
      exact this
    obtain ⟨b, _, _, hsel, _⟩ := st.helper.pop_best_some o.sim selected_id h1
    rw [hpop] at hsel
    dsimp only at hsel
    have hlen : helper.selected_ids.length = st.helper.selected_ids.length + 1 := by
      unfold MmrHelper.selected_ids
      rw [hsel]
      simp
    split at hstep
    all_goals (injection hstep with h; subst h)
    · constructor
      · intro h
        exact MmrHelper.add_candidates_inv o.sim _ helper (hInv h)
      · show (helper.add_candidates o.sim _).selected_ids.length = _
        unfold MmrHelper.selected_ids
        rw [MmrHelper.add_candidates_selected]
        exact hlen
    · exact ⟨hInv, hlen⟩

theorem gs_mmr_loop_inv (o : StoreOracle α) (p : GsParams α) :
    ∀ (fuel : ℕ) (st : GsState α), st.helper.Inv →
      (gs_mmr_loop o p fuel st).helper.Inv := by
  intro fuel
  induction fuel with
  | zero => intro st h; exact h
  | succ n ih =>
    intro st h
    unfold gs_mmr_loop
    cases hstep : gs_mmr_step o p st with
    | none => exact h
    | some st' => exact ih st' ((gs_mmr_step_some o p st st' hstep).1 h)

theorem gs_mmr_loop_length (o : StoreOracle α) (p : GsParams α) :
    ∀ (fuel : ℕ) (st : GsState α),
      (gs_mmr_loop o p fuel st).helper.selected_ids.length ≤
        st.helper.selected_ids.length + fuel ∧
      ((gs_mmr_loop o p fuel st).helper.selected_ids.length <
          st.helper.selected_ids.length + fuel →
        (gs_mmr_loop o p fuel st).helper.exhausted_or_below = true) := by
  intro fuel
  induction fuel with
  | zero =>
    intro st
    unfold gs_mmr_loop
    exact ⟨by omega, fun h => absurd h (by omega)⟩
  | succ n ih =>
    intro st
    unfold gs_mmr_loop
    cases hstep : gs_mmr_step o p st with
    | none =>
      dsimp only
      refine ⟨Nat.le_add_right _ _, fun _ => ?_⟩
      exact gs_mmr_step_none o p st hstep
    | some st' =>
      dsimp only
      obtain ⟨hle, hlt⟩ := ih st'
      have hlen := (gs_mmr_step_some o p st st' hstep).2
      refine ⟨by omega, fun h => hlt (by omega)⟩

/-- C1: over any store contents (oracle) and any parameter combination, the
id sequence selected and returned by `mmr_traversal_search` contains no
repeated id: no node is selected twice within one call. -/
theorem mmr_no_duplicate_selection (o : StoreOracle α) (p : GsParams α) :
    (mmr_traversal_search o p).helper.selected_ids.Nodup :=
  (gs_mmr_loop_inv o p p.k (gs_init_state o p) (gs_init_state_inv o p)).1

/-- C3: `mmr_traversal_search` returns at most `k` ids; it returns fewer
than `k` only when, at loop exit, the candidate pool is exhausted or the
best remaining score is below `score_threshold`; and a best candidate whose
score is ≥ `score_threshold` is always eligible: `pop_best` selects it. -/
theorem mmr_selection_count_bound (o : StoreOracle α) (p : GsParams α) :
    (mmr_traversal_search o p).helper.selected_ids.length ≤ p.k ∧
    ((mmr_traversal_search o p).helper.selected_ids.length < p.k →
      (mmr_traversal_search o p).helper.exhausted_or_below = true) ∧
    (∀ (h : MmrHelper α) (b : HCandidate α), bestCandidate h.candidates = some b →
      ¬ b.score < h.score_threshold → (h.pop_best o.sim).1 = some b.id) := by
  have hsel : (gs_init_state o p).helper.selected_ids.length = 0 := by
    unfold MmrHelper.selected_ids
    rw [gs_init_state_selected]
    rfl
  obtain ⟨hle, hlt⟩ := gs_mmr_loop_length o p p.k (gs_init_state o p)
  refine ⟨by unfold mmr_traversal_search; omega, ?_, ?_⟩
  · intro h
    apply hlt
    rw [hsel]
    unfold mmr_traversal_search at h
    omega
  · intro h b hb hge
    unfold MmrHelper.pop_best
    rw [hb]
    dsimp only
    rw [if_neg hge]

/-- Witness for C3 (on the empty store nothing is selectable): with
`k = 2` the call selects `0 < 2` ids and the pool is indeed exhausted. -/
theorem mmr_selection_count_bound_witness :
    ((mmr_traversal_search emptyOracle emptyParams).helper.selected_ids.length
      < emptyParams.k) ∧
    (mmr_traversal_search emptyOracle emptyParams).helper.exhausted_or_below
      = true :=
  ⟨by decide, (mmr_selection_count_bound emptyOracle emptyParams).2.1 (by decide)⟩

theorem dictLookup_cons_pos {α : Type} (p : ℕ × α) (ps : List (ℕ × α))
    (k : ℕ) (h : (p.1 == k) = true) : dictLookup (p :: ps) k = some p.2 := by
  unfold dictLookup
  rw [@List.find?_cons_of_pos _ (fun q => q.1 == k) p ps h]
  rfl

theorem dictLookup_cons_neg {α : Type} (p : ℕ × α) (ps : List (ℕ × α))
    (k : ℕ) (h : ¬ (p.1 == k) = true) :
    dictLookup (p :: ps) k = dictLookup ps k := by
  unfold dictLookup
  rw [@List.find?_cons_of_neg _ (fun q => q.1 == k) p ps h]

theorem dictContains_cons {α : Type} (p : ℕ × α) (ps : List (ℕ × α)) (k : ℕ) :
    dictContains (p :: ps) k = ((p.1 == k) || dictContains ps k) := by
  unfold dictContains
  rw [List.any_cons]

theorem dictLookup_map_set {α : Type} (k : ℕ) (v : α) :
    ∀ m : List (ℕ × α),
      dictLookup (m.map (fun p => if p.1 == k then (k, v) else p)) k =
        if dictContains m k then some v else none := by
  intro m
  induction m with
  | nil => rfl
  | cons p ps ih =>
    rw [List.map_cons, dictContains_cons]
    by_cases hp : (p.1 == k) = true
    · rw [if_pos hp, dictLookup_cons_pos (k, v) _ k (by simp),
        if_pos (show ((p.1 == k) || dictContains ps k) = true by simp [hp])]
    · have hp' : (p.1 == k) = false := eq_false_of_ne_true hp
      rw [if_neg hp, dictLookup_cons_neg p _ k hp, ih, hp', Bool.false_or]

theorem dictLookup_append_single {α : Type} (k : ℕ) (v : α) :
    ∀ m : List (ℕ × α), dictContains m k = false →
      dictLookup (m ++ [(k, v)]) k = some v := by
  intro m
  induction m with
  | nil =>
    intro _
    exact dictLookup_cons_pos (k, v) [] k (by simp)
  | cons p ps ih =>
    intro h
    rw [dictContains_cons] at h
    rcases Bool.or_eq_false_iff.mp h with ⟨h1, h2⟩
    rw [List.cons_append, dictLookup_cons_neg p _ k (by simp [h1])]
    exact ih h2

theorem dictLookup_dictSet_self {α : Type} (m : List (ℕ × α)) (k : ℕ) (v : α) :
    dictLookup (dictSet m k v) k = some v := by
  unfold dictSet
  by_cases h : dictContains m k
  · rw [if_pos h, dictLookup_map_set k v m, if_pos h]
  · rw [if_neg h]
    exact dictLookup_append_single k v m (by simpa using h)

theorem fetch_neighborhood_qlog (o : StoreOracle α) (p : GsParams α)
    (st : GsState α) (roots : List ℕ) :
    (fetch_neighborhood o p st roots).qlog =
      st.qlog ++ (get_outgoing_tags o roots).map QEvent.neighborhood := rfl

theorem fetch_initial_candidates_qlog (o : StoreOracle α) (p : GsParams α)
    (st : GsState α) :
    (fetch_initial_candidates o p st).qlog = st.qlog := rfl

theorem expandBounded_nil (dep : ℕ) : ExpandBounded dep [] := by
  intro id d t h
  exact absurd h (List.not_mem_nil _)

theorem expandBounded_append (dep : ℕ) (L1 L2 : List QEvent)
    (h1 : ExpandBounded dep L1) (h2 : ExpandBounded dep L2) :
    ExpandBounded dep (L1 ++ L2) := by
  intro id d t hmem
  rcases List.mem_append.mp hmem with h | h
  · exact h1 id d t h
  · exact h2 id d t h

theorem expandBounded_neighborhood (dep : ℕ) (tags : List Tag) :
    ExpandBounded dep (tags.map QEvent.neighborhood) := by
  intro id d t hmem
  obtain ⟨t', _, heq⟩ := List.mem_map.mp hmem
  simp at heq

theorem expandBounded_map_expand (dep sel d : ℕ) (tags : List Tag)
    (h : d + 1 < dep) : ExpandBounded dep (tags.map (QEvent.expand sel d)) := by
  intro id' d' t' hmem
  obtain ⟨t0, _, heq⟩ := List.mem_map.mp hmem
  cases heq
  exact h

theorem gs_mmr_step_qlog (o : StoreOracle α) (p : GsParams α) (st st' : GsState α)
    (hstep : gs_mmr_step o p st = some st')
    (hb : ExpandBounded p.depth st.qlog) : ExpandBounded p.depth st'.qlog := by
  unfold gs_mmr_step at hstep
  rcases hpop : st.helper.pop_best o.sim with ⟨fst, helper⟩
  rw [hpop] at hstep
  cases fst with
  | none => simp at hstep
  | some selected_id =>
    dsimp only at hstep
    split at hstep
    · rename_i hdep
      injection hstep with h
      subst h
      exact expandBounded_append _ _ _ hb (expandBounded_map_expand _ _ _ _ hdep)
    · injection hstep with h
      subst h
      exact hb

theorem gs_mmr_loop_qlog (o : StoreOracle α) (p : GsParams α) :
    ∀ (fuel : ℕ) (st : GsState α), ExpandBounded p.depth st.qlog →
      ExpandBounded p.depth (gs_mmr_loop o p fuel st).qlog := by
  intro fuel
  induction fuel with
  | zero => intro st h; exact h
  | succ n ih =>
    intro st h
    unfold gs_mmr_loop
    cases hstep : gs_mmr_step o p st with
    | none => exact h
    | some st' => exact ih st' (gs_mmr_step_qlog o p st st' hstep h)

theorem gs_init_state_qlog (o : StoreOracle α) (p : GsParams α) :
    ExpandBounded p.depth (gs_init_state o p).qlog := by
  unfold gs_init_state
  dsimp only
  split
  · rw [fetch_initial_candidates_qlog]
    split
    · exact expandBounded_nil _
    · rw [fetch_neighborhood_qlog]
      exact expandBounded_append _ _ _ (expandBounded_nil _)
        (expandBounded_neighborhood _ _)
  · split
    · exact expandBounded_nil _
    · rw [fetch_neighborhood_qlog]
      exact expandBounded_append _ _ _ (expandBounded_nil _)
        (expandBounded_neighborhood _ _)

/-- C4: during MMR traversal, adjacency queries are only issued while
expanding a selected node whose recorded depth `d` satisfies
`d + 1 < depth`; a node recorded at depth `d` with `d + 1 ≥ depth` (in
particular any node first discovered at depth ≥ `depth`, which the guard
makes impossible to expand) never triggers adjacency queries for its
outgoing tags. -/
theorem mmr_depth_respected (o : StoreOracle α) (p : GsParams α) (id d : ℕ)
    (t : Tag)
    (hmem : QEvent.expand id d t ∈ (mmr_traversal_search o p).qlog) :
    d + 1 < p.depth :=
  gs_mmr_loop_qlog o p p.k (gs_init_state o p) (gs_init_state_qlog o p)
    id d t hmem

/-- Witness for C4: on `expandOracle`, node 1 (recorded depth 0) expands tag
`(1,1)`, and indeed `0 + 1 < depth = 2`. -/
theorem mmr_depth_respected_witness :
    QEvent.expand 1 0 (1, 1) ∈
      (mmr_traversal_search expandOracle expandParams).qlog ∧
    0 + 1 < expandParams.depth :=
  ⟨by decide,
   mmr_depth_respected expandOracle expandParams 1 0 (1, 1) (by decide)⟩

/-- C5 (code bug): with `initial_roots = [0]` (root tag `(1,1)`) and a
similarity hit (node 1) carrying the same outgoing tag `(1,1)`, one call of
`mmr_traversal_search` issues the adjacency query for tag `(1,1)` twice:
once from `fetch_neighborhood` and once when expanding node 1.  The
`visited_tags = self._get_outgoing_tags(neighborhood)` assignment at
graph_store.py line 433 binds a variable local to `fetch_neighborhood`
(there is no `nonlocal`), so — contrary to the comment at lines 431-432,
"This prevents re-visiting them" — the enclosing `visited_tags` set stays
empty and the tag is re-queried. -/
theorem mmr_duplicate_tag_query :
    (mmr_traversal_search rootTagOracle rootTagParams).qlog =
      [QEvent.neighborhood (1, 1), QEvent.expand 1 0 (1, 1)] ∧
    ((mmr_traversal_search rootTagOracle rootTagParams).qlog.countP
      (fun ev => ev.tag == (1, 1))) = 2 :=
  ⟨by decide, by decide⟩

/-- Counterexample for C6: in MMR traversal on `shallowerOracle`, node 3 is
first discovered at depth 2; expanding node 4 (recorded depth 0, so its
targets are at depth 1) issues the query for tag `(1,30)` whose results
contain node 3 — a rediscovery at the strictly shallower depth 1 — yet the
final visited-depth map still records depth 2 for node 3, not 1. -/
theorem mmr_shallower_rediscovery_ignored :
    QEvent.expand 4 0 (1, 30) ∈
      (mmr_traversal_search shallowerOracle shallowerParams).qlog ∧
    (3 : ℕ) ∈ ((shallowerOracle.tagRows (1, 30)
      shallowerParams.adjacent_k).map AdjRow.content_id) ∧
    dictLookup (mmr_traversal_search shallowerOracle shallowerParams).depths 3
      = some 2 :=
  ⟨by decide, by decide, by decide⟩

theorem dictLookup_map_set_ne {β : Type} (k k' : ℕ) (v : β) (h : ¬ k' = k) :
    ∀ m : List (ℕ × β),
      dictLookup (m.map (fun p => if p.1 == k then (k, v) else p)) k' =
        dictLookup m k' := by
  intro m
  induction m with
  | nil => rfl
  | cons p ps ih =>
    rw [List.map_cons]
    by_cases hp : (p.1 == k) = true
    · rw [if_pos hp]
      have hpk : p.1 = k := eq_of_beq hp
      have hk : ¬ ((k, v).1 == k') = true := by
        simp only [beq_iff_eq]
        exact fun hh => h hh.symm
      have hk2 : ¬ (p.1 == k') = true := by
        simp only [beq_iff_eq, hpk]
        exact fun hh => h hh.symm
      rw [dictLookup_cons_neg (k, v) _ k' hk, dictLookup_cons_neg p ps k' hk2, ih]
    · rw [if_neg hp]
      by_cases hq : (p.1 == k') = true
      · rw [dictLookup_cons_pos p _ k' hq, dictLookup_cons_pos p ps k' hq]
      · rw [dictLookup_cons_neg p _ k' hq, dictLookup_cons_neg p ps k' hq, ih]

theorem dictLookup_append_one_ne {β : Type} (k k' : ℕ) (v : β) (h : ¬ k' = k) :
    ∀ m : List (ℕ × β), dictLookup (m ++ [(k, v)]) k' = dictLookup m k' := by
  intro m
  induction m with
  | nil =>
    have hk : ¬ ((k, v).1 == k') = true := by
      simp only [beq_iff_eq]
      exact fun hh => h hh.symm
    rw [List.nil_append, dictLookup_cons_neg (k, v) [] k' hk]
  | cons p ps ih =>
    rw [List.cons_append]
    by_cases hq : (p.1 == k') = true
    · rw [dictLookup_cons_pos p _ k' hq, dictLookup_cons_pos p ps k' hq]
    · rw [dictLookup_cons_neg p _ k' hq, dictLookup_cons_neg p ps k' hq, ih]

theorem dictLookup_dictSet_ne {β : Type} (m : List (ℕ × β)) (k k' : ℕ) (v : β)
    (h : ¬ k' = k) : dictLookup (dictSet m k v) k' = dictLookup m k' := by
  unfold dictSet
  split
  · exact dictLookup_map_set_ne k k' v h m
  · exact dictLookup_append_one_ne k k' v h m

theorem foldl_min_le (l : List ℕ) :
    ∀ a : ℕ, l.foldl min a ≤ a ∧ ∀ x ∈ l, l.foldl min a ≤ x := by
  induction l with
  | nil =>
    intro a
    exact ⟨Nat.le_refl a, fun x hx => absurd hx (List.not_mem_nil x)⟩
  | cons b t ih =>
    intro a
    rw [List.foldl_cons]
    obtain ⟨h1, h2⟩ := ih (min a b)
    refine ⟨Nat.le_trans h1 (Nat.min_le_left a b), ?_⟩
    intro x hx
    rcases List.mem_cons.mp hx with rfl | hx
    · exact Nat.le_trans h1 (Nat.min_le_right a x)
    · exact h2 x hx

theorem min?_le_of_mem {l : List ℕ} {x : ℕ} (h : x ∈ l) :
    ∃ v, l.min? = some v ∧ v ≤ x := by
  cases l with
  | nil => exact absurd h (List.not_mem_nil x)
  | cons a t =>
    refine ⟨t.foldl min a, rfl, ?_⟩
    rcases List.mem_cons.mp h with rfl | hx
    · exact (foldl_min_le t x).1
    · exact (foldl_min_le t a).2 x hx

theorem min?_append_one (l : List ℕ) (d : ℕ) :
    (l ++ [d]).min? = some (min ((l.min?).getD d) d) := by
  cases l with
  | nil =>
    show some d = some (min d d)
    rw [Nat.min_self]
  | cons a t =>
    rw [List.cons_append]
    show some ((t ++ [d]).foldl min a) = _
    rw [List.foldl_append]
    rfl

theorem minVisitDepth_append (log : List (ℕ × ℕ)) (j d i : ℕ) :
    minVisitDepth (log ++ [(j, d)]) i =
      if j = i then some (min ((minVisitDepth log i).getD d) d)
      else minVisitDepth log i := by
  unfold minVisitDepth
  rw [List.filter_append]
  by_cases hj : j = i
  · subst hj
    rw [if_pos rfl]
    have hf : List.filter (fun e => e.1 == j) [(j, d)] = [(j, d)] := by simp
    rw [hf, List.map_append]
    exact min?_append_one _ d
  · rw [if_neg hj]
    have hf : List.filter (fun e => e.1 == i) [(j, d)] = [] := by simp [hj]
    rw [hf, List.append_nil]

theorem minVisitDepth_le_of_mem (log : List (ℕ × ℕ)) (i d : ℕ)
    (h : (i, d) ∈ log) : ∃ v, minVisitDepth log i = some v ∧ v ≤ d := by
  unfold minVisitDepth
  apply min?_le_of_mem
  exact List.mem_map_of_mem Prod.snd (List.mem_filter.mpr ⟨h, by simp⟩)

theorem tvOut_refl (o : TraversalOracle) (st : TvState) (h : st.MapMin) :
    TvOut o st st :=
  ⟨h, fun i v hv => ⟨v, hv, Nat.le_refl v⟩, fun _ he => he, fun _ he => Or.inl he⟩

theorem tvMapLe_trans {st1 st2 st3 : TvState} (h1 : TvMapLe st1 st2)
    (h2 : TvMapLe st2 st3) : TvMapLe st1 st3 := by
  intro i v hv
  obtain ⟨v1, hv1, hle1⟩ := h1 i v hv
  obtain ⟨v2, hv2, hle2⟩ := h2 i v1 hv1
  exact ⟨v2, hv2, Nat.le_trans hle2 hle1⟩

theorem tvOut_trans {o : TraversalOracle} {st1 st2 st3 : TvState}
    (h1 : TvOut o st1 st2) (h2 : TvOut o st2 st3) : TvOut o st1 st3 := by
  obtain ⟨m1, l1, s1, t1⟩ := h1
  obtain ⟨m2, l2, s2, t2⟩ := h2
  refine ⟨m2, tvMapLe_trans l1 l2, fun e he => s2 e (s1 e he), ?_⟩
  intro e he
  rcases t2 e he with h | h | h
  · rcases t1 e h with h' | h' | h'
    · exact Or.inl h'
    · obtain ⟨v, hv, hle⟩ := h'
      obtain ⟨v', hv', hle'⟩ := l2 e.1 v hv
      exact Or.inr (Or.inl ⟨v', hv', Nat.le_trans hle' hle⟩)
    · exact Or.inr (Or.inr h')
  · exact Or.inr (Or.inl h)
  · exact Or.inr (Or.inr h)

theorem tvProcessNodeTag_fold_fields (depth d : ℕ) (l : List Tag) :
    ∀ init : TvState × List Tag,
      (l.foldl (tvProcessNodeTag depth d) init).1.visited_ids =
        init.1.visited_ids ∧
      (l.foldl (tvProcessNodeTag depth d) init).1.visitLog =
        init.1.visitLog ∧
      (l.foldl (tvProcessNodeTag depth d) init).1.targetLog =
        init.1.targetLog := by
  induction l with
  | nil => intro init; exact ⟨rfl, rfl, rfl⟩
  | cons tag rest ih =>
    intro init
    rw [List.foldl_cons]
    obtain ⟨h1, h2, h3⟩ := ih (tvProcessNodeTag depth d init tag)
    have hstep : (tvProcessNodeTag depth d init tag).1.visited_ids =
        init.1.visited_ids ∧
        (tvProcessNodeTag depth d init tag).1.visitLog = init.1.visitLog ∧
        (tvProcessNodeTag depth d init tag).1.targetLog = init.1.targetLog := by
      unfold tvProcessNodeTag
      split
      · exact ⟨rfl, rfl, rfl⟩
      · exact ⟨rfl, rfl, rfl⟩
    exact ⟨h1.trans hstep.1, h2.trans hstep.2.1, h3.trans hstep.2.2⟩

theorem tvProcessRow_ok (depth d : ℕ) (hd : d ≤ depth)
    (acc : TvState × List Tag) (node : ℕ × List Tag) (h : acc.1.MapMin) :
    (tvProcessRow depth d acc node).1.MapMin ∧
    TvMapLe acc.1 (tvProcessRow depth d acc node).1 ∧
    (tvProcessRow depth d acc node).1.visitLog =
      acc.1.visitLog ++ [(node.1, d)] ∧
    (tvProcessRow depth d acc node).1.targetLog = acc.1.targetLog ∧
    (¬ d < depth → (tvProcessRow depth d acc node).2 = acc.2) := by
  unfold tvProcessRow
  dsimp only
  by_cases hguard : d ≤ (dictLookup acc.1.visited_ids node.1).getD depth
  · rw [if_pos hguard]
    have hpass :
        TvState.MapMin
          { acc.1 with
            visitLog := acc.1.visitLog ++ [(node.1, d)]
            visited_ids := dictSet acc.1.visited_ids node.1 d } ∧
        TvMapLe acc.1
          { acc.1 with
            visitLog := acc.1.visitLog ++ [(node.1, d)]
            visited_ids := dictSet acc.1.visited_ids node.1 d } := by
      constructor
      · intro i
        show dictLookup (dictSet acc.1.visited_ids node.1 d) i =
          minVisitDepth (acc.1.visitLog ++ [(node.1, d)]) i
        rw [minVisitDepth_append]
        by_cases hi : node.1 = i
        · subst hi
          rw [if_pos rfl, dictLookup_dictSet_self, ← h node.1]
          cases hmv : dictLookup acc.1.visited_ids node.1 with
          | none =>
            show some d = some (min d d)
            rw [Nat.min_self]
          | some v =>
            simp only [hmv, Option.getD_some] at hguard
            show some d = some (min v d)
            rw [Nat.min_eq_right hguard]
        · rw [if_neg hi, dictLookup_dictSet_ne _ _ _ _ (fun hh => hi hh.symm)]
          exact h i
      · intro i v hv
        by_cases hi : i = node.1
        · subst hi
          refine ⟨d, dictLookup_dictSet_self _ _ _, ?_⟩
          rw [hv] at hguard
          exact hguard
        · exact ⟨v, (dictLookup_dictSet_ne _ _ _ _ hi).trans hv, Nat.le_refl v⟩
    by_cases hinner : d < depth ∧ node.2 ≠ []
    · rw [if_pos hinner]
      obtain ⟨f1, f2, f3⟩ := tvProcessNodeTag_fold_fields depth d node.2
        ({ acc.1 with
            visitLog := acc.1.visitLog ++ [(node.1, d)]
            visited_ids := dictSet acc.1.visited_ids node.1 d }, acc.2)
      refine ⟨?_, ?_, f2, f3, ?_⟩
      · intro i
        show dictLookup
          (node.2.foldl (tvProcessNodeTag depth d) _).1.visited_ids i = _
        rw [f1, f2]
        exact hpass.1 i
      · intro i v hv
        obtain ⟨v', hv', hle⟩ := hpass.2 i v hv
        exact ⟨v', by rw [f1]; exact hv', hle⟩
      · intro hnd
        exact absurd hinner.1 hnd
    · rw [if_neg hinner]
      exact ⟨hpass.1, hpass.2, rfl, rfl, fun _ => rfl⟩
  · rw [if_neg hguard]
    refine ⟨?_, ?_, rfl, rfl, fun _ => rfl⟩
    · intro i
      show dictLookup acc.1.visited_ids i =
        minVisitDepth (acc.1.visitLog ++ [(node.1, d)]) i
      rw [minVisitDepth_append]
      by_cases hi : node.1 = i
      · subst hi
        rw [if_pos rfl, ← h node.1]
        cases hmv : dictLookup acc.1.visited_ids node.1 with
        | none =>
          simp only [hmv, Option.getD_none] at hguard
          exact absurd hd hguard
        | some v =>
          simp only [hmv, Option.getD_some] at hguard
          have hvd : v ≤ d := Nat.le_of_lt (Nat.lt_of_not_le hguard)
          show some v = some (min v d)
          rw [Nat.min_eq_left hvd]
      · rw [if_neg hi]
        exact h i
    · exact fun i v hv => ⟨v, hv, Nat.le_refl v⟩

theorem tvRowsFold_ok (depth d : ℕ) (hd : d ≤ depth) :
    ∀ (nodes : List (ℕ × List Tag)) (acc : TvState × List Tag),
      acc.1.MapMin →
      (nodes.foldl (tvProcessRow depth d) acc).1.MapMin ∧
      TvMapLe acc.1 (nodes.foldl (tvProcessRow depth d) acc).1 ∧
      (nodes.foldl (tvProcessRow depth d) acc).1.visitLog =
        acc.1.visitLog ++ nodes.map (fun n => (n.1, d)) ∧
      (nodes.foldl (tvProcessRow depth d) acc).1.targetLog =
        acc.1.targetLog ∧
      (¬ d < depth → (nodes.foldl (tvProcessRow depth d) acc).2 = acc.2) := by
  intro nodes
  induction nodes with
  | nil =>
    intro acc h
    exact ⟨h, fun i v hv => ⟨v, hv, Nat.le_refl v⟩, by simp, rfl, fun _ => rfl⟩
  | cons node rest ih =>
    intro acc h
    rw [List.foldl_cons]
    obtain ⟨p1, p2, p3, p4, p5⟩ := tvProcessRow_ok depth d hd acc node h
    obtain ⟨q1, q2, q3, q4, q5⟩ := ih (tvProcessRow depth d acc node) p1
    refine ⟨q1, tvMapLe_trans p2 q2, ?_, q4.trans p4, ?_⟩
    · rw [q3, p3, List.append_assoc]
      rfl
    · intro hnd
      rw [q5 hnd, p5 hnd]

theorem tvCollectFold_sub (depth d : ℕ) (m : List (ℕ × ℕ)) :
    ∀ (targets acc : List ℕ) (x : ℕ), x ∈ acc →
      x ∈ targets.foldl (tvCollectStep depth d m) acc := by
  intro targets
  induction targets with
  | nil => intro acc x hx; exact hx
  | cons t rest ih =>
    intro acc x hx
    rw [List.foldl_cons]
    apply ih
    unfold tvCollectStep
    split
    · exact List.mem_append_left _ hx
    · exact hx

theorem tvCollectNew_mem_aux (depth d : ℕ) (m : List (ℕ × ℕ)) (t : ℕ)
    (hc : d < (dictLookup m t).getD depth) :
    ∀ (targets acc : List ℕ), t ∈ targets →
      t ∈ targets.foldl (tvCollectStep depth d m) acc := by
  intro targets
  induction targets with
  | nil => intro acc ht; exact absurd ht (List.not_mem_nil t)
  | cons u rest ih =>
    intro acc ht
    rw [List.foldl_cons]
    rcases List.mem_cons.mp ht with rfl | htr
    · apply tvCollectFold_sub
      unfold tvCollectStep
      by_cases hacc : t ∈ acc
      · split
        · exact List.mem_append_left _ hacc
        · exact hacc
      · rw [if_pos ⟨hc, hacc⟩]
        exact List.mem_append_right _ (List.mem_singleton.mpr rfl)
    · exact ih (tvCollectStep depth d m acc u) htr

theorem tvCollectNew_mem (depth d : ℕ) (m : List (ℕ × ℕ)) (targets : List ℕ)
    (t : ℕ) (ht : t ∈ targets) (hc : d < (dictLookup m t).getD depth) :
    t ∈ tvCollectNew depth d m targets :=
  tvCollectNew_mem_aux depth d m t hc targets [] ht

theorem tvNodeLoopGen_ok (o : TraversalOracle)
    (visit : ℕ → List (ℕ × List Tag) → TvState → TvState) (d : ℕ)
    (hv : ∀ (nodes : List (ℕ × List Tag)) (st : TvState), st.MapMin →
      TvOut o st (visit (d + 1) nodes st) ∧
      ∀ n ∈ nodes, (n.1, d + 1) ∈ (visit (d + 1) nodes st).visitLog) :
    ∀ (ids : List ℕ) (st : TvState), st.MapMin →
      TvOut o st (tvNodeLoopGen o visit d ids st) ∧
      ∀ nid ∈ ids,
        (∃ v, dictLookup (tvNodeLoopGen o visit d ids st).visited_ids nid =
          some v ∧ v ≤ d + 1) ∨
        o.link_to_tags_of nid = none := by
  intro ids
  induction ids with
  | nil =>
    intro st h
    exact ⟨tvOut_refl o st h, fun nid hnid => absurd hnid (List.not_mem_nil nid)⟩
  | cons nid rest ih =>
    intro st h
    cases hlk : o.link_to_tags_of nid with
    | none =>
      have hstep : tvNodeLoopGen o visit d (nid :: rest) st =
          tvNodeLoopGen o visit d rest st := by
        simp only [tvNodeLoopGen, hlk]
      rw [hstep]
      obtain ⟨hout, hrest⟩ := ih st h
      refine ⟨hout, ?_⟩
      intro x hx
      rcases List.mem_cons.mp hx with heq | hxr
      · subst heq
        exact Or.inr hlk
      · exact hrest x hxr
    | some tags2 =>
      have hstep : tvNodeLoopGen o visit d (nid :: rest) st =
          tvNodeLoopGen o visit d rest (visit (d + 1) [(nid, tags2)] st) := by
        simp only [tvNodeLoopGen, hlk]
      rw [hstep]
      obtain ⟨hout1, hrows⟩ := hv [(nid, tags2)] st h
      obtain ⟨hout2, hrest⟩ := ih (visit (d + 1) [(nid, tags2)] st) hout1.1
      refine ⟨tvOut_trans hout1 hout2, ?_⟩
      intro x hx
      rcases List.mem_cons.mp hx with heq | hxr
      · subst heq
        have hmem : (x, d + 1) ∈ (visit (d + 1) [(x, tags2)] st).visitLog :=
          hrows (x, tags2) (List.mem_singleton.mpr rfl)
        obtain ⟨v, hv1, hle⟩ := minVisitDepth_le_of_mem _ x (d + 1) hmem
        have hlook : dictLookup (visit (d + 1) [(x, tags2)] st).visited_ids x
            = some v := by
          rw [hout1.1 x, hv1]
        obtain ⟨v', hv', hle'⟩ := hout2.2.1 x v hlook
        exact Or.inl ⟨v', hv', Nat.le_trans hle' hle⟩
      · exact hrest x hxr

theorem tvTagLoopGen_ok (o : TraversalOracle) (depth : ℕ)
    (visit : ℕ → List (ℕ × List Tag) → TvState → TvState) (d : ℕ)
    (hdlt : d < depth)
    (hv : ∀ (nodes : List (ℕ × List Tag)) (st : TvState), st.MapMin →
      TvOut o st (visit (d + 1) nodes st) ∧
      ∀ n ∈ nodes, (n.1, d + 1) ∈ (visit (d + 1) nodes st).visitLog) :
    ∀ (tags : List Tag) (st : TvState), st.MapMin →
      TvOut o st (tvTagLoopGen o depth visit d tags st) := by
  intro tags
  induction tags with
  | nil => intro st h; exact tvOut_refl o st h
  | cons tag rest ih =>
    intro st h
    have hstep : tvTagLoopGen o depth visit d (tag :: rest) st =
        tvTagLoopGen o depth visit d rest
          (tvNodeLoopGen o visit d
            (tvCollectNew depth d st.visited_ids (o.tagTargets tag))
            { st with targetLog := st.targetLog ++ (o.tagTargets tag).map (fun t => (t, d + 1)) }) := rfl
    rw [hstep]
    have h1 : TvState.MapMin { st with targetLog := st.targetLog ++ (o.tagTargets tag).map (fun t => (t, d + 1)) } := h
    obtain ⟨hout2, hbound⟩ := tvNodeLoopGen_ok o visit d hv
      (tvCollectNew depth d st.visited_ids (o.tagTargets tag))
      { st with targetLog := st.targetLog ++ (o.tagTargets tag).map (fun t => (t, d + 1)) } h1
    have hout3 := ih _ hout2.1
    refine ⟨hout3.1, ?_, ?_, ?_⟩
    · have hle1 : TvMapLe st { st with targetLog := st.targetLog ++ (o.tagTargets tag).map (fun t => (t, d + 1)) } :=
        fun i v hv' => ⟨v, hv', Nat.le_refl v⟩
      exact tvMapLe_trans (tvMapLe_trans hle1 hout2.2.1) hout3.2.1
    · intro e he
      exact hout3.2.2.1 e (hout2.2.2.1 e he)
    · intro e he
      rcases hout3.2.2.2 e he with hst2 | hbd | hesc
      · rcases hout2.2.2.2 e hst2 with hst1 | hbd | hesc
        · rcases List.mem_append.mp hst1 with hold | hnew
          · exact Or.inl hold
          · obtain ⟨t, htmem, rfl⟩ := List.mem_map.mp hnew
            by_cases hcond : d < (dictLookup st.visited_ids t).getD depth
            · have htn : t ∈ tvCollectNew depth d st.visited_ids (o.tagTargets tag) :=
                tvCollectNew_mem depth d st.visited_ids (o.tagTargets tag) t htmem hcond
              rcases hbound t htn with ⟨v, hv2, hle⟩ | hesc
              · obtain ⟨v', hv', hle'⟩ := hout3.2.1 t v hv2
                exact Or.inr (Or.inl ⟨v', hv', Nat.le_trans hle' hle⟩)
              · exact Or.inr (Or.inr hesc)
            · cases hmv : dictLookup st.visited_ids t with
              | none =>
                exfalso
                apply hcond
                rw [hmv]
                exact hdlt
              | some v =>
                simp only [hmv, Option.getD_some] at hcond
                have hvd : v ≤ d := Nat.le_of_not_lt hcond
                obtain ⟨v1, hv1, hle1⟩ := hout2.2.1 t v hmv
                obtain ⟨v2, hv2, hle2⟩ := hout3.2.1 t v1 hv1
                exact Or.inr (Or.inl ⟨v2, hv2, by omega⟩)
        · obtain ⟨v, hv2, hle⟩ := hbd
          obtain ⟨v', hv', hle'⟩ := hout3.2.1 e.1 v hv2
          exact Or.inr (Or.inl ⟨v', hv', Nat.le_trans hle' hle⟩)
        · exact Or.inr (Or.inr hesc)
      · exact Or.inr (Or.inl hbd)
      · exact Or.inr (Or.inr hesc)

theorem tvVisit_ok (o : TraversalOracle) (depth : ℕ) :
    ∀ (fuel d : ℕ) (nodes : List (ℕ × List Tag)) (st : TvState),
      d ≤ depth → depth < d + fuel → st.MapMin →
      TvOut o st (tvVisit o depth fuel d nodes st) ∧
      ∀ n ∈ nodes, (n.1, d) ∈ (tvVisit o depth fuel d nodes st).visitLog := by
  intro fuel
  induction fuel with
  | zero =>
    intro d nodes st hd hfuel h
    exact absurd hfuel (by omega)
  | succ m ih =>
    intro d nodes st hd hfuel h
    have hstep : tvVisit o depth (m + 1) d nodes st =
        tvTagLoopGen o depth (fun d' ns st' => tvVisit o depth m d' ns st') d
          (nodes.foldl (tvProcessRow depth d) (st, [])).2
          (nodes.foldl (tvProcessRow depth d) (st, [])).1 := rfl
    rw [hstep]
    obtain ⟨r1, r2, r3, r4, r5⟩ := tvRowsFold_ok depth d hd nodes (st, []) h
    have hout0 : TvOut o st (nodes.foldl (tvProcessRow depth d) (st, [])).1 := by
      refine ⟨r1, r2, ?_, ?_⟩
      · intro e he
        rw [r3]
        exact List.mem_append_left _ he
      · intro e he
        rw [r4] at he
        exact Or.inl he
    by_cases hdlt : d < depth
    · have hvv : ∀ (ns : List (ℕ × List Tag)) (st' : TvState), st'.MapMin →
          TvOut o st' (tvVisit o depth m (d + 1) ns st') ∧
          ∀ n ∈ ns, (n.1, d + 1) ∈ (tvVisit o depth m (d + 1) ns st').visitLog :=
        fun ns st' h' => ih (d + 1) ns st' (by omega) (by omega) h'
      have hout1 := tvTagLoopGen_ok o depth
        (fun d' ns st' => tvVisit o depth m d' ns st') d hdlt hvv
        (nodes.foldl (tvProcessRow depth d) (st, [])).2
        (nodes.foldl (tvProcessRow depth d) (st, [])).1 r1
      refine ⟨tvOut_trans hout0 hout1, ?_⟩
      intro n hn
      have hmem : (n.1, d) ∈
          (nodes.foldl (tvProcessRow depth d) (st, [])).1.visitLog := by
        rw [r3]
        exact List.mem_append_right _ (List.mem_map.mpr ⟨n, hn, rfl⟩)
      exact hout1.2.2.1 _ hmem
    · have hempty : (nodes.foldl (tvProcessRow depth d) (st, [])).2 =
          ([] : List Tag) := r5 hdlt
      rw [hempty]
      have hnil : tvTagLoopGen o depth
          (fun d' ns st' => tvVisit o depth m d' ns st') d []
          (nodes.foldl (tvProcessRow depth d) (st, [])).1 =
          (nodes.foldl (tvProcessRow depth d) (st, [])).1 := rfl
      rw [hnil]
      refine ⟨hout0, ?_⟩
      intro n hn
      rw [r3]
      exact List.mem_append_right _ (List.mem_map.mpr ⟨n, hn, rfl⟩)

/-- C6 (amended): plain traversal (`traversal_search`, graph_store.py lines
549-679) has the global shortest-depth property: at the end of the call the
per-node visited-depth map records, for every discovered node, the minimum
number of expansion hops from any seed over all paths discovered during the
call — every final `visited_ids` entry equals the minimum over the node's
visit events (line 620's rule: a rediscovery at a strictly shallower depth
updates the recorded depth, an equal-or-deeper one leaves the value
unchanged) — and no adjacency target observed by `visit_targets` (lines
652-656) undercuts its recorded depth (unless the store holds no row for
it).  In MMR traversal the minimum-depth rule instead applies only at first
discovery (the amendment forced by counterexample
`mmr_shallower_rediscovery_ignored`): an adjacent target already tracked in
`outgoing_tags` is skipped entirely (graph_store.py line 524), its recorded
depth unchanged even when rediscovered at a strictly shallower depth, while
an untracked target's recorded depth becomes `next_depth` exactly when
`next_depth` beats the recorded depth (default `depth + 1`, lines
531-536). -/
theorem visited_depth_semantics (o : TraversalOracle) (k depth : ℕ)
    (p : GsParams α) (next_depth : ℕ)
    (acc : List (ℕ × List Tag) × List (ℕ × ℕ) × List (ℕ × ℕ))
    (adjacent : Edge) :
    (∀ i, dictLookup (traversal_search o k depth).visited_ids i =
      minVisitDepth (traversal_search o k depth).visitLog i) ∧
    (∀ e ∈ (traversal_search o k depth).targetLog,
      (∃ v, dictLookup (traversal_search o k depth).visited_ids e.1 =
        some v ∧ v ≤ e.2) ∨
      o.link_to_tags_of e.1 = none) ∧
    (dictContains acc.1 adjacent.target_content_id = true →
      process_adjacent p next_depth acc adjacent = acc) ∧
    (dictContains acc.1 adjacent.target_content_id = false →
      dictLookup (process_adjacent p next_depth acc adjacent).2.2
          adjacent.target_content_id =
        if next_depth <
            (dictLookup acc.2.2 adjacent.target_content_id).getD (p.depth + 1)
        then some next_depth
        else dictLookup acc.2.2 adjacent.target_content_id) := by
  have hinit : TvState.MapMin
      { visited_ids := [], visited_tags := [], visitLog := [], targetLog := [] } :=
    fun i => rfl
  obtain ⟨hout, hrows⟩ := tvVisit_ok o depth (depth + 1) 0
    (o.similarityNodeRows k)
    { visited_ids := [], visited_tags := [], visitLog := [], targetLog := [] }
    (Nat.zero_le depth) (by omega) hinit
  refine ⟨hout.1, ?_, ?_, ?_⟩
  · intro e he
    rcases hout.2.2.2 e he with hmem | hbd | hesc
    · exact absurd hmem (List.not_mem_nil e)
    · exact Or.inl hbd
    · exact Or.inr hesc
  · intro hin
    unfold process_adjacent
    rw [if_pos hin]
  · intro hnot
    unfold process_adjacent
    rw [if_neg (by simp [hnot])]
    dsimp only
    split
    · exact dictLookup_dictSet_self _ _ _
    · rfl

/-- Witness for C6 (amended): on `plainOracle` (`k = 2`, `depth = 2`),
node 4 is discovered at depth 2 (1 → 3 → 4) then rediscovered at depth 1
(seed 2 → 4): the final plain-traversal map records the minimum, depth 1,
and the observed target event `(4, 2)` does not undercut it; in the MMR
accumulator a tracked adjacent (id 7) is skipped entirely and an untracked
adjacent (id 9) gets depth `next_depth = 1`. -/
theorem visited_depth_semantics_witness :
    dictLookup (traversal_search plainOracle 2 2).visited_ids 4 =
      minVisitDepth (traversal_search plainOracle 2 2).visitLog 4 ∧
    dictLookup (traversal_search plainOracle 2 2).visited_ids 4 = some 1 ∧
    (4, 2) ∈ (traversal_search plainOracle 2 2).targetLog ∧
    ((∃ v, dictLookup (traversal_search plainOracle 2 2).visited_ids 4 =
        some v ∧ v ≤ 2) ∨ plainOracle.link_to_tags_of 4 = none) ∧
    process_adjacent expandParams 1 ([(7, [])], [], []) (edgeOfRow
      { content_id := 7, text_embedding := 0, link_to_tags := [] }) =
      ([(7, [])], [], []) ∧
    dictLookup (process_adjacent expandParams 1 ([(7, [])], [], [])
      (edgeOfRow { content_id := 9, text_embedding := 0,
                   link_to_tags := [] })).2.2 9 = some 1 := by
  refine ⟨?_, by decide, by decide, ?_, ?_, ?_⟩
  · exact (visited_depth_semantics plainOracle 2 2 expandParams 1
      ([(7, [])], [], []) (edgeOfRow
        { content_id := 7, text_embedding := 0, link_to_tags := [] })).1 4
  · exact (visited_depth_semantics plainOracle 2 2 expandParams 1
      ([(7, [])], [], []) (edgeOfRow
        { content_id := 7, text_embedding := 0, link_to_tags := [] })).2.1
      (4, 2) (by decide)
  · exact (visited_depth_semantics plainOracle 2 2 expandParams 1
      ([(7, [])], [], []) (edgeOfRow
        { content_id := 7, text_embedding := 0, link_to_tags := [] })).2.2.1
      (by decide)
  · exact ((visited_depth_semantics plainOracle 2 2 expandParams 1
      ([(7, [])], [], []) (edgeOfRow
        { content_id := 9, text_embedding := 0, link_to_tags := [] })).2.2.2
      (by decide)).trans (by decide)

theorem dictContains_append {β : Type} (m l : List (ℕ × β)) (k : ℕ) :
    dictContains (m ++ l) k = (dictContains m k || dictContains l k) := by
  unfold dictContains
  rw [List.any_append]

theorem dictSet_append {β : Type} (m : List (ℕ × β)) (k : ℕ) (v : β)
    (h : ¬ dictContains m k = true) : dictSet m k v = m ++ [(k, v)] := by
  unfold dictSet
  rw [if_neg h]

theorem dictLookup_of_contains {β : Type} (m : List (ℕ × β)) (k : ℕ)
    (h : dictContains m k = true) :
    ∃ v, dictLookup m k = some v ∧ (k, v) ∈ m := by
  unfold dictContains at h
  obtain ⟨e, hmem, he⟩ := List.any_eq_true.mp h
  have hsome : (m.find? (fun p => p.1 == k)).isSome = true :=
    List.find?_isSome.mpr ⟨e, hmem, he⟩
  obtain ⟨v', hv⟩ := Option.isSome_iff_exists.mp hsome
  have hkey : v'.1 = k := by simpa using List.find?_some hv
  have hmem' : v' ∈ m := List.mem_of_find?_eq_some hv
  refine ⟨v'.2, ?_, ?_⟩
  · unfold dictLookup
    rw [hv]
    rfl
  · have : (k, v'.2) = v' := by rw [← hkey]
    rw [this]
    exact hmem'

theorem addTarget_keyed (processed : List AdjRow) (acc : List Edge)
    (h : EdgeKeyed processed acc) (r : AdjRow) :
    EdgeKeyed (processed ++ [r]) (addTarget acc r) := by
  obtain ⟨h1, h2, h3⟩ := h
  unfold addTarget
  split
  · rename_i hin
    refine ⟨h1, fun i => ?_, fun e he => ?_⟩
    · rw [h2 i]
      constructor
      · rintro ⟨r', hr', rfl⟩
        exact ⟨r', List.mem_append_left _ hr', rfl⟩
      · rintro ⟨r', hr', rfl⟩
        rcases List.mem_append.mp hr' with hr' | hr'
        · exact ⟨r', hr', rfl⟩
        · simp only [List.mem_singleton] at hr'
          subst hr'
          obtain ⟨e, he, hekey⟩ := List.any_eq_true.mp hin
          have : e.target_content_id = r'.content_id := by simpa using hekey
          rw [← this]
          exact (h2 e.target_content_id).mp (List.mem_map_of_mem _ he)
    · obtain ⟨r0, hr0, her0⟩ := h3 e he
      refine ⟨r0, ?_, her0⟩
      rw [List.find?_append, hr0, Option.or_some]
  · rename_i hout
    have hkey : r.content_id ∉ acc.map Edge.target_content_id := by
      intro hmem
      apply hout
      obtain ⟨e, he, hekey⟩ := List.mem_map.mp hmem
      exact List.any_eq_true.mpr ⟨e, he, by simp [hekey]⟩
    have hnone :
        processed.find? (fun r' => r'.content_id == r.content_id) = none := by
      rw [List.find?_eq_none]
      intro x hx hbx
      apply hkey
      rw [h2]
      exact ⟨x, hx, by simpa using hbx⟩
    refine ⟨?_, fun i => ?_, fun e he => ?_⟩
    · rw [List.map_append]
      refine h1.append (List.nodup_singleton _) ?_
      intro a ha hb
      simp only [List.map_cons, List.map_nil, List.mem_singleton] at hb
      subst hb
      exact hkey ha
    · rw [List.map_append]
      simp only [List.map_cons, List.map_nil]
      rw [List.mem_append, List.mem_singleton, h2 i]
      constructor
      · rintro (⟨r', hr', rfl⟩ | rfl)
        · exact ⟨r', List.mem_append_left _ hr', rfl⟩
        · exact ⟨r, List.mem_append_right _ (List.mem_singleton_self r), rfl⟩
      · rintro ⟨r', hr', rfl⟩
        rcases List.mem_append.mp hr' with hr' | hr'
        · exact Or.inl ⟨r', hr', rfl⟩
        · simp only [List.mem_singleton] at hr'
          subst hr'
          exact Or.inr rfl
    · rcases List.mem_append.mp he with he | he
      · obtain ⟨r0, hr0, her0⟩ := h3 e he
        refine ⟨r0, ?_, her0⟩
        rw [List.find?_append, hr0, Option.or_some]
      · simp only [List.mem_singleton] at he
        subst he
        refine ⟨r, ?_, rfl⟩
        have hnone' : List.find?
            (fun r' => r'.content_id == (edgeOfRow r).target_content_id)
            processed = none := hnone
        rw [List.find?_append, hnone', Option.none_or]
        exact List.find?_cons_of_pos _ (by simp [edgeOfRow])

theorem edgeKeyed_nil : EdgeKeyed [] [] := by
  refine ⟨List.nodup_nil, fun i => ?_, fun e he => ?_⟩
  · simp
  · exact absurd he (List.not_mem_nil _)

theorem foldl_addTarget_keyed :
    ∀ (rows : List AdjRow) (processed : List AdjRow) (acc : List Edge),
      EdgeKeyed processed acc →
      EdgeKeyed (processed ++ rows) (rows.foldl addTarget acc) := by
  intro rows
  induction rows with
  | nil =>
    intro processed acc h
    simpa using h
  | cons r rs ih =>
    intro processed acc h
    rw [List.foldl_cons]
    have := ih (processed ++ [r]) (addTarget acc r) (addTarget_keyed processed acc h r)
    simpa [List.append_assoc] using this

theorem get_adjacent_eq_stream (o : StoreOracle α) (k_per_tag : ℕ) :
    ∀ (tags : List Tag) (acc : List Edge),
      tags.foldl (fun ts t => (o.tagRows t k_per_tag).foldl addTarget ts) acc =
        (tags.flatMap (fun t => o.tagRows t k_per_tag)).foldl addTarget acc := by
  intro tags
  induction tags with
  | nil => intro acc; rfl
  | cons t ts ih =>
    intro acc
    rw [List.foldl_cons, List.flatMap_cons, List.foldl_append]
    exact ih _

/-- C10: `_get_adjacent` returns each adjacent target node at most once per
call — even when that target matches several of the given tags — keyed by
target content id: the returned edges have pairwise distinct
`target_content_id`s, cover exactly the ids of the rows the per-tag queries
returned, and each returned edge is built from the first row observed with
its id. -/
theorem get_adjacent_dedup (o : StoreOracle α) (tags : List Tag)
    (k_per_tag : ℕ) :
    ((get_adjacent o tags k_per_tag).map Edge.target_content_id).Nodup ∧
    (∀ i, i ∈ (get_adjacent o tags k_per_tag).map Edge.target_content_id ↔
      ∃ r ∈ tags.flatMap (fun t => o.tagRows t k_per_tag),
        r.content_id = i) ∧
    (∀ e ∈ get_adjacent o tags k_per_tag, ∃ r,
      (tags.flatMap (fun t => o.tagRows t k_per_tag)).find?
          (fun r => r.content_id == e.target_content_id) = some r ∧
      e = edgeOfRow r) := by
  have h : EdgeKeyed (tags.flatMap (fun t => o.tagRows t k_per_tag))
      (get_adjacent o tags k_per_tag) := by
    unfold get_adjacent
    rw [get_adjacent_eq_stream o k_per_tag tags []]
    simpa using foldl_addTarget_keyed
      (tags.flatMap (fun t => o.tagRows t k_per_tag)) [] [] edgeKeyed_nil
  exact h

theorem dictContains_of_lookup {β : Type} (m : List (ℕ × β)) (k : ℕ) (v : β)
    (h : dictLookup m k = some v) : dictContains m k = true := by
  unfold dictLookup at h
  obtain ⟨e, he, _⟩ := Option.map_eq_some'.mp h
  have hpred : (e.1 == k) = true :=
    @List.find?_some _ (fun p => p.1 == k) e m he
  exact List.any_eq_true.mpr ⟨e, List.mem_of_find?_eq_some he, hpred⟩

theorem dictContains_dictSet_of {β : Type} (m : List (ℕ × β)) (k k' : ℕ)
    (v : β) (h : dictContains m k' = true) :
    dictContains (dictSet m k v) k' = true := by
  unfold dictSet
  split
  · obtain ⟨e, he, hek⟩ := List.any_eq_true.mp h
    refine List.any_eq_true.mpr ⟨if e.1 == k then (k, v) else e, ?_, ?_⟩
    · exact List.mem_map_of_mem _ he
    · split
      · rename_i hek'
        have h1 : e.1 = k := by simpa using hek'
        have h2 : e.1 = k' := by simpa using hek
        simpa using (h1 ▸ h2 : _)
      · exact hek
  · rw [dictContains_append, h, Bool.true_or]

theorem dictContains_dictSet_self {β : Type} (m : List (ℕ × β)) (k : ℕ)
    (v : β) : dictContains (dictSet m k v) k = true :=
  dictContains_of_lookup _ k v (dictLookup_dictSet_self m k v)

theorem dictContains_map_zero (l : List ℕ) (i : ℕ) :
    dictContains (l.map (fun cid => (cid, (0 : ℕ)))) i = true ↔ i ∈ l := by
  unfold dictContains
  rw [List.any_eq_true]
  constructor
  · rintro ⟨p, hp, hq⟩
    obtain ⟨cid, hc, rfl⟩ := List.mem_map.mp hp
    have : cid = i := by simpa using hq
    exact this ▸ hc
  · intro hi
    exact ⟨(i, 0), List.mem_map_of_mem _ hi, by simp⟩

theorem add_candidates_mem (sim : ℕ → ℕ → α) :
    ∀ (l : List (ℕ × ℕ)) (h : MmrHelper α) (c : HCandidate α),
      c ∈ (h.add_candidates sim l).candidates →
      c ∈ h.candidates ∨ ∃ q ∈ l, c.id = q.1 := by
  intro l
  induction l with
  | nil => intro h c hc; exact Or.inl hc
  | cons q qs ih =>
    intro h c hc
    have hc' : c ∈ ((h.add_candidate_step sim q).add_candidates sim qs).candidates := hc
    rcases ih _ c hc' with hc'' | ⟨q', hq', hid⟩
    · unfold MmrHelper.add_candidate_step at hc''
      split at hc''
      · exact Or.inl hc''
      · rcases List.mem_append.mp hc'' with hin | hin
        · exact Or.inl hin
        · simp only [List.mem_singleton] at hin
          subst hin
          exact Or.inr ⟨q, List.mem_cons_self q qs, rfl⟩
    · exact Or.inr ⟨q', List.mem_cons_of_mem q hq', hid⟩

theorem pop_best_candidates_sub (sim : ℕ → ℕ → α) (h : MmrHelper α) :
    ∀ c ∈ (h.pop_best sim).2.candidates, ∃ c0 ∈ h.candidates, c0.id = c.id := by
  intro c hc
  cases hp : (h.pop_best sim).1 with
  | none =>
    rw [(h.pop_best_none sim hp).1] at hc
    exact ⟨c, hc, rfl⟩
  | some i =>
    obtain ⟨b, _, _, _, hcand⟩ := h.pop_best_some sim i hp
    rw [hcand] at hc
    obtain ⟨c0, hc0, hc0e⟩ := List.mem_map.mp hc
    refine ⟨c0, (List.mem_filter.mp hc0).1, ?_⟩
    rw [← hc0e, HCandidate.update_id]

theorem foldl_process_adjacent_cover (p : GsParams α) (nd : ℕ)
    (hnd : nd < p.depth + 1) (base : List (ℕ × ℕ)) :
    ∀ (rows : List Edge)
      (acc : List (ℕ × List Tag) × List (ℕ × ℕ) × List (ℕ × ℕ)),
      (∀ q ∈ acc.2.1, dictContains acc.2.2 q.1 = true) →
      (∀ i, dictContains base i = true → dictContains acc.2.2 i = true) →
      ((∀ q ∈ (rows.foldl (process_adjacent p nd) acc).2.1,
          dictContains (rows.foldl (process_adjacent p nd) acc).2.2 q.1 = true) ∧
       (∀ i, dictContains base i = true →
          dictContains (rows.foldl (process_adjacent p nd) acc).2.2 i = true)) := by
  intro rows
  induction rows with
  | nil => intro acc h1 h2; exact ⟨h1, h2⟩
  | cons r rs ih =>
    intro acc h1 h2
    rw [List.foldl_cons]
    by_cases hc : dictContains acc.1 r.target_content_id = true
    · have hstep : process_adjacent p nd acc r = acc := by
        unfold process_adjacent
        rw [if_pos hc]
      rw [hstep]
      exact ih acc h1 h2
    · have hstep : process_adjacent p nd acc r =
          (dictSet acc.1 r.target_content_id r.target_link_to_tags,
           acc.2.1 ++ [(r.target_content_id, r.target_text_embedding)],
           if nd < (dictLookup acc.2.2 r.target_content_id).getD (p.depth + 1)
           then dictSet acc.2.2 r.target_content_id nd else acc.2.2) := by
        unfold process_adjacent
        rw [if_neg hc]
      rw [hstep]
      by_cases hlt : nd < (dictLookup acc.2.2 r.target_content_id).getD (p.depth + 1)
      · rw [if_pos hlt]
        refine ih _ ?_ ?_
        · intro q hq
          rcases List.mem_append.mp hq with hq | hq
          · exact dictContains_dictSet_of _ _ _ _ (h1 q hq)
          · simp only [List.mem_singleton] at hq
            subst hq
            exact dictContains_dictSet_self _ _ _
        · intro i hi
          exact dictContains_dictSet_of _ _ _ _ (h2 i hi)
      · rw [if_neg hlt]
        refine ih _ ?_ h2
        intro q hq
        rcases List.mem_append.mp hq with hq | hq
        · exact h1 q hq
        · simp only [List.mem_singleton] at hq
          subst hq
          cases hlk : dictLookup acc.2.2 r.target_content_id with
          | none =>
            exfalso
            apply hlt
            rw [hlk]
            exact hnd
          | some v => exact dictContains_of_lookup _ _ v hlk

/-- Every id the selection loop can pop has an entry in the `depths` map, so
the plain `depths[selected_id]` subscript of graph_store.py line 495 cannot
raise: the state entering the loop covers all candidates, one loop step
preserves coverage, and a popped id is a covered candidate id. -/
theorem gs_mmr_depths_total (o : StoreOracle α) (p : GsParams α) :
    GsState.DepthsCover (gs_init_state o p) ∧
    (∀ st st' : GsState α, st.DepthsCover → gs_mmr_step o p st = some st' →
      st'.DepthsCover) ∧
    (∀ (st : GsState α) (i : ℕ), st.DepthsCover →
      (st.helper.pop_best o.sim).1 = some i →
      dictContains st.depths i = true) := by
  refine ⟨?_, ?_, ?_⟩
  · intro c hc
    show dictContains ((gs_init_state o p).helper.candidate_ids.map
      (fun cid => (cid, 0))) c.id = true
    rw [dictContains_map_zero]
    exact List.mem_map_of_mem HCandidate.id hc
  · intro st st' hcov hstep
    unfold gs_mmr_step at hstep
    rcases hpop : st.helper.pop_best o.sim with ⟨fst, helper⟩
    rw [hpop] at hstep
    cases fst with
    | none => simp at hstep
    | some selected_id =>
      dsimp only at hstep
      have hsub : ∀ c ∈ helper.candidates, dictContains st.depths c.id = true := by
        intro c hc
        have := pop_best_candidates_sub o.sim st.helper c (by rw [hpop]; exact hc)
        obtain ⟨c0, hc0, hc0id⟩ := this
        rw [← hc0id]
        exact hcov c0 hc0
      have key : ∀ (rows : List Edge) (og : List (ℕ × List Tag)) (nd : ℕ),
          nd < p.depth + 1 →
          ∀ c ∈ (helper.add_candidates o.sim
              ((rows.foldl (process_adjacent p nd)
                (og, ([] : List (ℕ × ℕ)), st.depths)).2.1)).candidates,
            dictContains ((rows.foldl (process_adjacent p nd)
              (og, ([] : List (ℕ × ℕ)), st.depths)).2.2) c.id = true := by
        intro rows og nd hnd c hc
        obtain ⟨hfold1, hfold2⟩ := foldl_process_adjacent_cover p nd hnd
          st.depths rows (og, ([] : List (ℕ × ℕ)), st.depths)
          (fun q hq => absurd hq (List.not_mem_nil _)) (fun i hi => hi)
        rcases add_candidates_mem o.sim _ helper c hc with hin | ⟨q, hq, hid⟩
        · exact hfold2 c.id (hsub c hin)
        · rw [hid]
          exact hfold1 q hq
      split at hstep
      · rename_i hdep
        injection hstep with h
        subst h
        intro c hc
        exact key _ _ _ (Nat.lt_succ_of_lt hdep) c hc
      · injection hstep with h
        subst h
        exact hsub
  · intro st i hcov hp
    obtain ⟨b, hb, hbid, _, _⟩ := st.helper.pop_best_some o.sim i hp
    rw [← hbid]
    exact hcov b hb

theorem nodesFetch_fold (store : ℕ → Option ℕ) :
    ∀ (ids : List ℕ) (acc : List (ℕ × Option (ℕ × ℕ)) × List ℕ),
      (∀ e ∈ acc.1, e.2 = (store e.1).map (fun pl => (e.1, pl))) →
      (∀ i, dictContains acc.1 i = true ↔ i ∈ acc.2) →
      acc.2.Nodup →
      ((∀ e ∈ (ids.foldl (nodesFetchStep store) acc).1,
          e.2 = (store e.1).map (fun pl => (e.1, pl))) ∧
       (∀ i, dictContains (ids.foldl (nodesFetchStep store) acc).1 i = true ↔
          i ∈ (ids.foldl (nodesFetchStep store) acc).2) ∧
       (ids.foldl (nodesFetchStep store) acc).2.Nodup ∧
       (∀ i, i ∈ (ids.foldl (nodesFetchStep store) acc).2 ↔
          i ∈ acc.2 ∨ i ∈ ids)) := by
  intro ids
  induction ids with
  | nil =>
    intro acc h1 h2 h3
    exact ⟨h1, h2, h3, fun i => by simp⟩
  | cons j js ih =>
    intro acc h1 h2 h3
    rw [List.foldl_cons]
    by_cases hj : dictContains acc.1 j = true
    · have hstep : nodesFetchStep store acc j = acc := by
        unfold nodesFetchStep
        rw [if_pos hj]
      rw [hstep]
      obtain ⟨g1, g2, g3, g4⟩ := ih acc h1 h2 h3
      refine ⟨g1, g2, g3, fun i => ?_⟩
      rw [g4 i]
      constructor
      · rintro (h | h)
        · exact Or.inl h
        · exact Or.inr (List.mem_cons_of_mem j h)
      · rintro (h | h)
        · exact Or.inl h
        · rcases List.mem_cons.mp h with rfl | h
          · exact Or.inl ((h2 i).mp hj)
          · exact Or.inr h
    · have hstep : nodesFetchStep store acc j =
          (acc.1 ++ [(j, (store j).map (fun pl => (j, pl)))], acc.2 ++ [j]) := by
        unfold nodesFetchStep
        rw [if_neg hj, dictSet_append acc.1 j _ hj]
      rw [hstep]
      have hjmem : j ∉ acc.2 := fun hmem => hj ((h2 j).mpr hmem)
      have hh1 : ∀ e ∈ acc.1 ++ [(j, (store j).map (fun pl => (j, pl)))],
          e.2 = (store e.1).map (fun pl => (e.1, pl)) := by
        intro e he
        rcases List.mem_append.mp he with he | he
        · exact h1 e he
        · simp only [List.mem_singleton] at he
          subst he
          rfl
      have hh2 : ∀ i, dictContains
          (acc.1 ++ [(j, (store j).map (fun pl => (j, pl)))]) i = true ↔
          i ∈ acc.2 ++ [j] := by
        intro i
        rw [dictContains_append, List.mem_append, List.mem_singleton,
          Bool.or_eq_true]
        constructor
        · rintro (h | h)
          · exact Or.inl ((h2 i).mp h)
          · have hji : j = i := by simpa [dictContains] using h
            exact Or.inr hji.symm
        · rintro (h | rfl)
          · exact Or.inl ((h2 i).mpr h)
          · refine Or.inr ?_
            simp [dictContains]
      have hh3 : (acc.2 ++ [j]).Nodup := by
        refine h3.append (List.nodup_singleton _) ?_
        intro a ha hb
        simp only [List.mem_singleton] at hb
        subst hb
        exact hjmem ha
      obtain ⟨g1, g2, g3, g4⟩ :=
        ih (acc.1 ++ [(j, (store j).map (fun pl => (j, pl)))], acc.2 ++ [j])
          hh1 hh2 hh3
      refine ⟨g1, g2, g3, fun i => ?_⟩
      rw [g4 i]
      simp only [List.mem_append, List.mem_singleton, List.mem_cons]
      tauto

theorem nodes_with_ids_lookup (store : ℕ → Option ℕ) (ids : List ℕ) :
    ∀ i ∈ ids,
      (dictLookup ((ids.foldl (nodesFetchStep store) ([], [])).1) i).getD none
        = (store i).map (fun pl => (i, pl)) := by
  obtain ⟨g1, g2, _, g4⟩ := nodesFetch_fold store ids ([], [])
    (fun e he => absurd he (List.not_mem_nil _))
    (fun i => by simp [dictContains])
    List.nodup_nil
  intro i hi
  have hc : dictContains ((ids.foldl (nodesFetchStep store) ([], [])).1) i = true :=
    (g2 i).mpr ((g4 i).mpr (Or.inr hi))
  obtain ⟨v, hv, hvm⟩ := dictLookup_of_contains _ i hc
  rw [hv]
  have := g1 (i, v) hvm
  simpa using this

theorem collect_results_eval (results : List (ℕ × Option (ℕ × ℕ)))
    (g : ℕ → Option (ℕ × ℕ)) :
    ∀ ids : List ℕ, (∀ i ∈ ids, (dictLookup results i).getD none = g i) →
      ((∀ i ∈ ids, (g i).isSome = true) →
        collect_results results ids = Except.ok (ids.filterMap g)) ∧
      ((∃ i ∈ ids, g i = none) →
        ∃ msg, collect_results results ids = Except.error msg) := by
  intro ids
  induction ids with
  | nil =>
    intro _
    refine ⟨fun _ => rfl, fun h => ?_⟩
    obtain ⟨i, hi, _⟩ := h
    exact absurd hi (List.not_mem_nil _)
  | cons j js ih =>
    intro hlk
    have hj := hlk j (List.mem_cons_self j js)
    obtain ⟨ih1, ih2⟩ := ih (fun i hi => hlk i (List.mem_cons_of_mem j hi))
    constructor
    · intro hall
      obtain ⟨n, hn⟩ := Option.isSome_iff_exists.mp
        (hall j (List.mem_cons_self j js))
      unfold collect_results
      rw [hj, hn]
      dsimp only
      rw [ih1 (fun i hi => hall i (List.mem_cons_of_mem j hi))]
      rw [List.filterMap_cons, hn]
      rfl
    · intro hex
      unfold collect_results
      rw [hj]
      cases hgj : g j with
      | none => exact ⟨_, rfl⟩
      | some n =>
        obtain ⟨i, hi, hnone⟩ := hex
        rcases List.mem_cons.mp hi with rfl | hi
        · rw [hgj] at hnone
          cases hnone
        · obtain ⟨msg, hmsg⟩ := ih2 ⟨i, hi, hnone⟩
          refine ⟨msg, ?_⟩
          dsimp only
          rw [hmsg]
          rfl

/-- C7: `_nodes_with_ids` issues exactly one point lookup per distinct
requested id (the issued-query log has no duplicates and covers exactly the
requested ids), returns the hydrated nodes in input order when every
requested id is present in the store, and raises the not-found `ValueError`
as soon as any requested id is absent — never a silently shorter result.
(`get_node(id)` is `_nodes_with_ids([id])[0]`.) -/
theorem nodes_with_ids_spec (store : ℕ → Option ℕ) (ids : List ℕ) :
    ((nodes_with_ids store ids).2.Nodup ∧
      (∀ i, i ∈ (nodes_with_ids store ids).2 ↔ i ∈ ids)) ∧
    ((∀ i ∈ ids, (store i).isSome = true) →
      (nodes_with_ids store ids).1 =
        Except.ok (ids.filterMap (fun i => (store i).map (fun pl => (i, pl))))) ∧
    ((∃ i ∈ ids, store i = none) →
      ∃ msg, (nodes_with_ids store ids).1 = Except.error msg) := by
  obtain ⟨g1, g2, g3, g4⟩ := nodesFetch_fold store ids ([], [])
    (fun e he => absurd he (List.not_mem_nil _))
    (fun i => by simp [dictContains])
    List.nodup_nil
  obtain ⟨c1, c2⟩ := collect_results_eval
    ((ids.foldl (nodesFetchStep store) ([], [])).1)
    (fun i => (store i).map (fun pl => (i, pl))) ids
    (nodes_with_ids_lookup store ids)
  refine ⟨⟨g3, fun i => (g4 i).trans (by simp)⟩, ?_, ?_⟩
  · intro hall
    refine c1 ?_
    intro i hi
    simpa using hall i hi
  · intro hex
    refine c2 ?_
    obtain ⟨i, hi, hnone⟩ := hex
    exact ⟨i, hi, by simp [hnone]⟩

/-- Witness for C7: hydrating `[1, 2, 1]` from the two-node store returns
the nodes in input order (with the duplicate id repeated), and hydrating
the never-inserted id 3 raises the not-found error. -/
theorem nodes_with_ids_spec_witness :
    (nodes_with_ids twoNodeStore [1, 2, 1]).1 =
      Except.ok [(1, 10), (2, 20), (1, 10)] ∧
    ∃ msg, (nodes_with_ids twoNodeStore [3]).1 = Except.error msg :=
  ⟨((nodes_with_ids_spec twoNodeStore [1, 2, 1]).2.1 (by decide)).trans rfl,
   (nodes_with_ids_spec twoNodeStore [3]).2.2 ⟨3, by decide, by decide⟩⟩

/-- Witness for C10: on `twoTagOracle`, target 7 matches both tags but is
returned once, built from the first row observed (embedding 1, not 2). -/
theorem get_adjacent_dedup_witness :
    (edgeOfRow { content_id := 7, text_embedding := 1, link_to_tags := [] } ∈
      get_adjacent twoTagOracle [(1, 1), (1, 2)] 10) ∧
    ∃ r, (([(1, 1), (1, 2)] : List Tag).flatMap
        (fun t => twoTagOracle.tagRows t 10)).find?
        (fun r' => r'.content_id == 7) = some r ∧
      edgeOfRow { content_id := 7, text_embedding := 1, link_to_tags := [] } =
        edgeOfRow r :=
  ⟨by decide,
   (get_adjacent_dedup twoTagOracle [(1, 1), (1, 2)] 10).2.2
     (edgeOfRow { content_id := 7, text_embedding := 1, link_to_tags := [] })
     (by decide)⟩

end GraphStore

end Ragstack
